import Mathlib

/-!
Verification of `mongoose-dynamic-schemas` (npm 1.2.6 source, the version with
path validation and `updateDefaults`).

The development shallowly embeds the module's schema-path resolution and the
five public operations.  The external mongoose schema is modelled, as the spec
prescribes for the external schema capability, as a tree that can be queried
by path and mutated by path:

* a schema tree is an association list from field names to nodes;
* a node is a primitive field description (`type`, optional `default`,
  optional `required`), a nested plain object (subdocument), or an array of
  subdocuments carrying its element tree.

The source keeps one replicated copy of an array's element definition per
nesting level and updates all copies in lockstep (the `subPaths.join('.0.')`
loops together with the per-level `schema.add`/`schema.remove` calls); the
model therefore stores the element tree once and performs the corresponding
single update, which is faithful whenever the copies agree, an invariant the
code maintains.

Documents are JSON-like values; the store is modelled as reliable (bulk
updates and saves succeed), matching the claims under examination, none of
which concerns store failures except where an explicit event trace is used.
-/

namespace MongooseDynamic

/-- Attributes of a primitive field description: the `type` tag and the
optional `default` and `required` entries.  Extra options are not modelled. -/
structure FieldAttrs where
  typeTag : String
  defaultTag : Option String
  requiredTag : Option Bool
deriving Repr, DecidableEq

/-- A schema node: a primitive field, a nested plain object (subdocument),
or an array of subdocuments owning its element tree.  The element tree of an
array is stored once (see the module docstring). -/
inductive Node where
  | prim (attrs : FieldAttrs)
  | sub (fields : List (String × Node))
  | arr (elem : List (String × Node))
deriving Repr

/-- One subdocument level of a schema: field name to node. -/
abbrev Tree := List (String × Node)

/-- Association-list lookup of a field, first occurrence wins (JS object
property access). -/
def lookupField : Tree → String → Option Node
  | [], _ => none
  | (k, v) :: rest, name => if k = name then some v else lookupField rest name

/-- Replace the value of an existing key in place, otherwise append at the
end (JS object property assignment order). -/
def setField : Tree → String → Node → Tree
  | [], name, d => [(name, d)]
  | (k, v) :: rest, name, d =>
    if k = name then (k, d) :: rest else (k, v) :: setField rest name d

/-- Delete the first entry with the given key (JS `delete obj[key]`). -/
def delField : Tree → String → Tree
  | [], _ => []
  | (k, v) :: rest, name => if k = name then rest else (k, v) :: delField rest name

/-- `objectPath.get` on a schema tree: walks plain nested objects; a lookup
that has to pass through a primitive or an array stops (the tree stores array
definitions as one-element JS arrays, which have no named properties). -/
def treeGetT (t : Tree) : List String → Option Node
  | [] => none
  | [s] => lookupField t s
  | s :: rest =>
    match lookupField t s with
    | some (Node.sub t') => treeGetT t' rest
    | _ => none

/-- `objectPath.set` on a schema tree within one array level: walks or
creates plain nested objects and assigns the final key; a non-object on the
way is replaced by a fresh object (object-path's behaviour).  This and
mongoose `Schema.add` merging produce the same tree, which the model uses for
both. -/
def treeSet (t : Tree) : List String → Node → Tree
  | [], _ => t
  | [s], d => setField t s d
  | s :: rest, d =>
    match lookupField t s with
    | some (Node.sub t') => setField t s (Node.sub (treeSet t' rest d))
    | _ => setField t s (Node.sub (treeSet [] rest d))

/-- Deletion by path within one array level: walks plain nested objects and
removes the final key; a missing or non-object intermediate makes the whole
deletion a no-op (object-path `del`, and the spec's `tree.delete`
capability). -/
def treeDel (t : Tree) : List String → Tree
  | [] => t
  | [s] => delField t s
  | s :: rest =>
    match lookupField t s with
    | some (Node.sub t') => setField t s (Node.sub (treeDel t' rest))
    | _ => t

/-- Mongoose `schema.path(dotted)`: resolves a dotted name through plain
nested objects to a terminal schema type.  A plain nested object is itself
not a path (mongoose registers only its leaves), hence the `sub` case yields
nothing; this is behaviourally equivalent to mongoose, where an empty object
placeholder is a `Mixed` path, because the resolver only ever asks whether
the result is an `Array`. -/
def schemaPath (t : Tree) : List String → Option Node
  | [] => none
  | [s] =>
    match lookupField t s with
    | some (Node.sub _) => none
    | x => x
  | s :: rest =>
    match lookupField t s with
    | some (Node.sub t') => schemaPath t' rest
    | _ => none

/-! ### JS string helpers

The JS code works on dotted strings; the functions below reproduce
`split('.')`, `includes`, `charAt` and the single-occurrence
`String.prototype.replace` on Lean strings. -/

/-- `split('.')` on a character list: always returns at least one (possibly
empty) piece, exactly like JS `"".split('.') == [""]`. -/
def splitDotsL : List Char → List (List Char)
  | [] => [[]]
  | c :: rest =>
    if c = '.' then [] :: splitDotsL rest
    else
      match splitDotsL rest with
      | s :: ss => (c :: s) :: ss
      | [] => [[c]]

/-- JS `path.split('.')`. -/
def jsSplit (s : String) : List String :=
  (splitDotsL s.toList).map fun l => String.mk l

/-- JS `String.prototype.includes`: substring containment. -/
def containsAt : List Char → List Char → Bool
  | _, [] => true
  | [], _ :: _ => false
  | c :: rest, pat =>
    pat.isPrefixOf (c :: rest) || containsAt rest pat

def jsIncludes (s pat : String) : Bool := containsAt s.toList pat.toList

/-- JS `charAt` modelled as an optional character (JS returns `""` out of
range, which compares unequal to any single-character string). -/
def jsCharAt (s : String) (i : Nat) : Option Char := s.toList.get? i

/-- JS `String.prototype.replace` with a string pattern replaces only the
first occurrence; the replacement here is the empty string, as in the
source's `currentFullPath.replace(".$[]", "")`. -/
def replaceFirstL : List Char → List Char → List Char
  | [], _ => []
  | c :: rest, pat =>
    if pat.isPrefixOf (c :: rest) then (c :: rest).drop pat.length
    else c :: replaceFirstL rest pat

def jsReplaceFirst (s pat : String) : String := String.mk (replaceFirstL s.toList pat.toList)

/-- `pathIsValid` (source lines 661-663): a path is rejected iff it starts
with `'.'`, ends with `'.'`, contains `".."`, or contains `'$'`. -/
def pathIsValid (path : String) : Bool :=
  !((jsCharAt path 0 == some '.') || (jsCharAt path (path.length - 1) == some '.')
    || jsIncludes path ".." || jsIncludes path "$")

/-! ### Path resolution (`getLastSchemaAndPaths`, source lines 711-767) -/

/-- `currentSchema.path(cp).instance === "Array"` for a dotted candidate. -/
def isArrayAt (t : Tree) (cp : String) : Bool :=
  match schemaPath t (jsSplit cp) with
  | some (Node.arr _) => true
  | _ => false

/-- `currentSchema.path(cp).schema`: the element tree of the array at the
dotted candidate path (only queried after `isArrayAt` holds). -/
def elemTreeAt (t : Tree) (cp : String) : Tree :=
  match schemaPath t (jsSplit cp) with
  | some (Node.arr e) => e
  | _ => []

/-- `objectPath.get(currentSchema.tree, cp) !== undefined`.  object-path
returns the whole object for an empty path, so the empty path always
exists. -/
def existsAt (t : Tree) (cp : String) : Bool :=
  if cp = "" then true else (treeGetT t (jsSplit cp)).isSome

/-- The record returned by `getLastSchemaAndPaths`: whether the terminal
field exists, the schema level owning it (`schema`), the path within that
level (`path`), the full query path with a `".$[]"` marker per array
boundary (`fullPath`), the filter path to the last array (`pathToLast`), and
the hop list (`subPaths`). -/
structure Resolved where
  fieldExists : Bool
  schema : Tree
  path : String
  fullPath : String
  pathToLast : String
  subPaths : List String
deriving Repr

/-- The combined walk of `getLastSchemaAndPathsRecursive` (source lines
725-767).  `currentPath` is the dotted candidate accumulated so far and
`segs` the segments not yet consumed; the source's inner `while` loop
(lines 728-740, extending the candidate until it names an `Array` or the
segments run out) and its recursive call on finding an array boundary
strictly before the last segment (lines 742-749) both consume one segment
here, so the recursion is structural in `segs`. -/
def glpGo (currentSchema : Tree) (currentPath : String) (segs : List String)
    (currentFullPath : String) (subPaths : List String) : Resolved :=
  match segs with
  | [] =>
    -- segments exhausted: the terminal record of lines 750-766
    { fieldExists := existsAt currentSchema currentPath,
      schema := currentSchema,
      path := currentPath,
      fullPath :=
        if currentFullPath = "" then currentPath else currentFullPath ++ ".$[]." ++ currentPath,
      pathToLast := jsReplaceFirst currentFullPath ".$[]",
      subPaths := subPaths ++ [currentPath] }
  | s :: rest =>
    if isArrayAt currentSchema currentPath then
      -- array boundary strictly before the last segment: one hop
      glpGo (elemTreeAt currentSchema currentPath) s rest
        (if currentFullPath = "" then currentPath
         else currentFullPath ++ ".$[]." ++ currentPath)
        (subPaths ++ [currentPath])
    else
      -- the while loop extends the candidate with the next segment
      glpGo currentSchema (currentPath ++ "." ++ s) rest currentFullPath subPaths

/-- `getLastSchemaAndPathsRecursive` (source lines 725-767), entered at the
first segment. -/
def getLastSchemaAndPathsRecursive (currentSchema : Tree) (segs : List String)
    (currentFullPath : String) (subPaths : List String) : Resolved :=
  match segs with
  | [] =>
    -- unreachable: `split` never yields an empty array
    { fieldExists := existsAt currentSchema "", schema := currentSchema, path := "",
      fullPath := currentFullPath, pathToLast := jsReplaceFirst currentFullPath ".$[]",
      subPaths := subPaths }
  | s :: rest => glpGo currentSchema s rest currentFullPath subPaths

/-- `getLastSchemaAndPaths` (source lines 711-713). -/
def getLastSchemaAndPaths (schema : Tree) (path : String) : Resolved :=
  getLastSchemaAndPathsRecursive schema (jsSplit path) "" []

/-! ### Documents and the document store -/

/-- A stored document value (JSON-like). -/
inductive Val where
  | vStr (s : String)
  | vNum (n : Int)
  | vBool (b : Bool)
  | vObj (fields : List (String × Val))
  | vArr (elems : List Val)
deriving Repr

def lookupV : List (String × Val) → String → Option Val
  | [], _ => none
  | (k, v) :: rest, name => if k = name then some v else lookupV rest name

def setKeyV : List (String × Val) → String → Val → List (String × Val)
  | [], name, v => [(name, v)]
  | (k, w) :: rest, name, v =>
    if k = name then (k, v) :: rest else (k, w) :: setKeyV rest name v

def delKeyV : List (String × Val) → String → List (String × Val)
  | [], _ => []
  | (k, w) :: rest, name => if k = name then rest else (k, w) :: delKeyV rest name

/-- `objectPath.get` on a document. -/
def valGet (v : Val) : List String → Option Val
  | [] => some v
  | s :: rest =>
    match v with
    | Val.vObj fs =>
      match lookupV fs s with
      | some child => valGet child rest
      | none => none
    | _ => none

/-- `objectPath.set` on a document: walks or creates plain objects and
assigns the final key; intermediate non-objects are replaced by fresh
objects.  (Descending into arrays by numeric index is not modelled; the
module never does it on documents.) -/
def valSet (v : Val) : List String → Val → Val
  | [], _ => v
  | [s], nv =>
    (match v with
     | Val.vObj fs => Val.vObj (setKeyV fs s nv)
     | _ => v)
  | s :: rest, nv =>
    (match v with
     | Val.vObj fs =>
       match lookupV fs s with
       | some (Val.vObj cfs) => Val.vObj (setKeyV fs s (valSet (Val.vObj cfs) rest nv))
       | _ => Val.vObj (setKeyV fs s (valSet (Val.vObj []) rest nv))
     | _ => v)

/-- MongoDB `$unset` along a query path whose segments may contain the
positional marker `"$[]"`, which applies the rest of the path to every
element of the array reached so far.  Missing fields make the update a
no-op on that document. -/
def valUnset (v : Val) : List String → Val
  | [] => v
  | s :: rest =>
    if s = "$[]" then
      match v with
      | Val.vArr es => Val.vArr (es.map fun e => valUnset e rest)
      | _ => v
    else
      match v with
      | Val.vObj fs =>
        if rest.isEmpty then Val.vObj (delKeyV fs s)
        else
          match lookupV fs s with
          | some child => Val.vObj (setKeyV fs s (valUnset child rest))
          | none => v
      | _ => v

/-- MongoDB `$set` along a query path with positional markers.  A `$set`
whose value is `undefined` (`none`) is modelled as a no-op. -/
def valSetQ (v : Val) (nv : Option Val) : List String → Val
  | [] => v
  | s :: rest =>
    if s = "$[]" then
      match v with
      | Val.vArr es => Val.vArr (es.map fun e => valSetQ e nv rest)
      | _ => v
    else
      match v with
      | Val.vObj fs =>
        if rest.isEmpty then
          match nv with
          | some nv' => Val.vObj (setKeyV fs s nv')
          | none => v
        else
          match lookupV fs s with
          | some child => Val.vObj (setKeyV fs s (valSetQ child nv rest))
          | none => v
      | _ => v

/-- The update filter `{ pathToLast : { $gt : [] } }` built by the source:
with an empty `pathToLast` every document matches, otherwise only documents
holding a non-empty array at that plain path. -/
def matchesFilter (v : Val) (pathToLast : String) : Bool :=
  if pathToLast = "" then true
  else
    match valGet v (jsSplit pathToLast) with
    | some (Val.vArr (_ :: _)) => true
    | _ => false

/-- `model.update(filter, { $unset ... }, { multi: true })`. -/
def docsUnset (docs : List Val) (pathToLast fullPath : String) : List Val :=
  docs.map fun d => if matchesFilter d pathToLast then valUnset d (jsSplit fullPath) else d

/-- `model.update(filter, { $set ... }, { multi: true })`. -/
def docsSetQ (docs : List Val) (pathToLast fullPath : String) (nv : Option Val) : List Val :=
  docs.map fun d => if matchesFilter d pathToLast then valSetQ d nv (jsSplit fullPath) else d

/-- `moveForAllSubArraysRecursive` (source lines 685-693): walks the hop
list, mapping over the array found at each hop, and at the last hop copies
the value at the origin's local path to the destination's local path.  A
missing origin value is modelled as leaving the document unchanged (the
source assigns `undefined`, which mongoose drops on save); a missing or
non-array hop value is also left unchanged (the source would throw there,
which no settled behaviour in this development reaches). -/
def moveForAllSubArraysRecursive (doc : Val) (subPaths : List String) (lastDestPath : String) : Val :=
  match subPaths with
  | [] => doc
  | [last] =>
    (match valGet doc (jsSplit last) with
     | some v => valSet doc (jsSplit lastDestPath) v
     | none => doc)
  | hop :: rest =>
    (match valGet doc (jsSplit hop) with
     | some (Val.vArr es) =>
       valSet doc (jsSplit hop) (Val.vArr (es.map fun e => moveForAllSubArraysRecursive e rest lastDestPath))
     | _ => doc)

/-- `moveForAllSubArrays` (source lines 673-675). -/
def moveForAllSubArrays (doc : Val) (subPaths : List String) (lastDestPath : String) : Val :=
  moveForAllSubArraysRecursive doc subPaths lastDestPath

/-! ### Operation outcomes and state -/

/-- How one call of a public operation settles its promise: `resolved` and
`rejected` are explicit settlements, `errored` is a rejection caused by a
thrown runtime error, and `pending` marks an execution path on which the
promise is never settled. -/
inductive Outcome where
  | resolved (msg : String)
  | rejected (msg : String)
  | errored (msg : String)
  | pending
deriving Repr, DecidableEq

/-- The observable state: the schema tree of the model and the stored
documents of its collection. -/
structure DBState where
  tree : Tree
  docs : List Val
deriving Repr

/-! ### Propagated schema edits

The source updates the owning array level plus every replicated copy of the
element definition (`schema.add`/`schema.remove` on the owner and the
`subPaths.join('.0.')` loops on the outer trees).  With one stored element
tree this is a single edit routed through the hops. -/

/-- Walk the dotted path to an array node through plain nested objects and
rewrite its element tree. -/
def treeModifyArr (t : Tree) : List String → (Tree → Tree) → Tree
  | [], _ => t
  | [s], f =>
    (match lookupField t s with
     | some (Node.arr e) => setField t s (Node.arr (f e))
     | _ => t)
  | s :: rest, f =>
    (match lookupField t s with
     | some (Node.sub t') => setField t s (Node.sub (treeModifyArr t' rest f))
     | _ => t)

/-- Insert a definition at the resolved location: descend the arrays named
by the leading hops, then set the terminal local path. -/
def setThroughHops (t : Tree) : List String → Node → Tree
  | [], _ => t
  | [last], d => treeSet t (jsSplit last) d
  | hop :: rest, d => treeModifyArr t (jsSplit hop) fun e => setThroughHops e rest d

/-- Delete the field at the resolved location, in the owner and in every
replicated copy. -/
def delThroughHops (t : Tree) : List String → Tree
  | [] => t
  | [last] => treeDel t (jsSplit last)
  | hop :: rest => treeModifyArr t (jsSplit hop) fun e => delThroughHops e rest

/-- The owner tree reached by descending the arrays named by the hops. -/
def ownerThroughHops (t : Tree) : List String → Tree
  | [] => t
  | hop :: rest => ownerThroughHops (elemTreeAt t hop) rest

/-- `updateDefaults` (source lines 775-803): every document is marked
modified and saved again so that newly declared defaults materialise.  The
model represents stored documents as already shape-complete and the store as
reliable, so the pass returns the state unchanged and always resolves. -/
def updateDefaults (st : DBState) (_path : String) : DBState := st

/-! ### The public operations -/

/-- The stages of `removeSchemaField` shared by both cascade settings
(source lines 413-440): path validation, resolution, existence check, the
bulk `$unset` at `fullPath` filtered on a non-empty array at `pathToLast`
(lines 421-428), and the removal of the field from the owner level and every
replicated element-tree copy (lines 430-440; one stored copy in this model;
the `subpaths` cache cleanup of line 434 has no tree effect).  Yields either
the rejection, with the untouched state, or the resolution record with the
state after the deletion. -/
def removeSchemaFieldCore (st : DBState) (path : String) : Outcome ⊕ (Resolved × DBState) :=
  if !pathIsValid path then Sum.inl (Outcome.rejected "The path is not valid")
  else
    let r := getLastSchemaAndPaths st.tree path
    if !r.fieldExists then
      Sum.inl (Outcome.rejected ("The field to remove does not exists (" ++ path ++ ")"))
    else
      let docs' := docsUnset st.docs r.pathToLast r.fullPath
      let tree' := delThroughHops st.tree r.subPaths
      Sum.inr (r, ⟨tree', docs'⟩)

/-- `removeSchemaField(model, path)` with the cascade flag at its default
`false`, as invoked by the cascade recursion of line 452. -/
def removeSchemaFieldNoCascade (st : DBState) (path : String) : Outcome × DBState :=
  match removeSchemaFieldCore st path with
  | Sum.inl o => (o, st)
  | Sum.inr (_, st') => (Outcome.resolved "Field removed successfully", st')

/-- `removeSchemaField` (source lines 411-464).  In the cascade branch
(lines 442-457), line 443 deletes the already-deleted field again (a no-op
here); line 449 reads `Object.keys(objectPath.get(schema.tree, parent))` on
the live owner tree after the deletion — a primitive is stored as its
definition object and an array as a one-element JS array, so only an emptied
plain object has zero keys, while a missing parent would make `Object.keys`
throw and the surrounding `.catch` turn the throw into a rejection.  The
recursive call of line 452 does not pass the cascade flag, and line 455
attaches no `.catch`, so an inner rejection leaves the outer promise
unsettled. -/
def removeSchemaField (st : DBState) (path : String) (removeSubdocumentIfEmpty : Bool) :
    Outcome × DBState :=
  match removeSchemaFieldCore st path with
  | Sum.inl o => (o, st)
  | Sum.inr (r, st') =>
    if removeSubdocumentIfEmpty then
      let lastPathArray := jsSplit r.path
      if lastPathArray.length > 1 then
        let parentSegs := lastPathArray.dropLast
        match treeGetT (ownerThroughHops st'.tree r.subPaths.dropLast) parentSegs with
        | some (Node.sub []) =>
          let cascadePath :=
            if r.pathToLast = "" then String.intercalate "." parentSegs
            else r.pathToLast ++ "." ++ String.intercalate "." parentSegs
          let inner := removeSchemaFieldNoCascade st' cascadePath
          ((match inner.1 with
            | Outcome.resolved _ => Outcome.resolved "Field removed successfully"
            | _ => Outcome.pending), inner.2)
        | some _ => (Outcome.resolved "Field removed successfully", st')
        | none => (Outcome.errored "Cannot convert undefined or null to object", st')
      else (Outcome.resolved "Field removed successfully", st')
    else (Outcome.resolved "Field removed successfully", st')

/-- The check of source lines 349-352: the prospective parent previously
held an "empty" definition.  `Object.keys(pf).length === 0` holds for an
emptied plain object, and `pf.type && Object.keys(pf.type).length === 0`
holds for every primitive definition, because a type constructor such as
`String` has no own enumerable keys; a non-empty plain object or an array
definition fails both tests. -/
def isEmptyPlaceholder : Option Node → Bool
  | some (Node.sub []) => true
  | some (Node.prim _) => true
  | _ => false

/-- `addSchemaAux` (source lines 380-399): the owner-level `schema.add` and
the replicated-copy loop become one insertion routed through the hops,
followed by the `updateDefaults` pass over `subPaths[0]`. -/
def addSchemaAux (st : DBState) (r : Resolved) (fieldDefinition : Node) : Outcome × DBState :=
  let tree' := setThroughHops st.tree r.subPaths fieldDefinition
  let st' := updateDefaults ⟨tree', st.docs⟩ (r.subPaths.headD "")
  (Outcome.resolved "", st')

/-- `addSchemaField` (source lines 333-371). -/
def addSchemaField (st : DBState) (path : String) (fieldDefinition : Node) : Outcome × DBState :=
  if !pathIsValid path then (Outcome.rejected "The path is not valid", st)
  else
    let r := getLastSchemaAndPaths st.tree path
    if r.fieldExists then
      (Outcome.rejected ("The field to add already exists (" ++ path ++ ")"), st)
    else
      let lastPaths := jsSplit r.path
      if lastPaths.length > 1 then
        -- line 348: `lastPaths.pop()` leaves the parent segments behind
        let parentSegs := lastPaths.dropLast
        let previousField := treeGetT r.schema parentSegs
        if isEmptyPlaceholder previousField then
          -- line 354: `lastSchemaAndPaths.pathToLast + lastPaths` coerces
          -- the popped array to its comma-joined string form and appends it
          -- to `pathToLast` without a separating dot
          let placeholderPath := r.pathToLast ++ String.intercalate "," parentSegs
          match removeSchemaFieldNoCascade st placeholderPath with
          | (Outcome.resolved _, st1) =>
            (match addSchemaAux st1 r fieldDefinition with
             | (Outcome.resolved _, st2) => (Outcome.resolved "Field added successfully", st2)
             | (o, st2) => (o, st2))
          | (o, st1) => (o, st1)
        else
          match addSchemaAux st r fieldDefinition with
          | (Outcome.resolved _, st2) => (Outcome.resolved "Field added successfully", st2)
          | (o, st2) => (o, st2)
      else
        match addSchemaAux st r fieldDefinition with
        | (Outcome.resolved _, st2) => (Outcome.resolved "Field added successfully", st2)
        | (o, st2) => (o, st2)

/-- `moveSchemaField` (source lines 483-547), translated as written: after
the origin path passes validation, line 487 evaluates `pathIsValid(path)`,
but no identifier `path` is in scope anywhere in the function, so the
executor throws a `ReferenceError` and the promise rejects with it before
resolution or any state change; the rest of the body (lines 489-545) is
unreachable. -/
def moveSchemaField (st : DBState) (origin dest : String) (removeSubdocumentIfEmpty : Bool) :
    Outcome × DBState :=
  if !pathIsValid origin then (Outcome.rejected "The origin path is not valid", st)
  else (Outcome.errored "path is not defined", st)

/-- Source lines 483-547 with the single evident slip of line 487,
`pathIsValid(path)`, read as `pathIsValid(dest)` (the function's own
documentation and the README describe a working move); used to examine the
behaviour of the remainder of the pipeline. -/
def moveSchemaFieldFixed (st : DBState) (origin dest : String) (removeSubdocumentIfEmpty : Bool) :
    Outcome × DBState :=
  if !pathIsValid origin then (Outcome.rejected "The origin path is not valid", st)
  else if !pathIsValid dest then (Outcome.rejected "The destination path is not valid", st)
  else
    let ro := getLastSchemaAndPaths st.tree origin
    let rd := getLastSchemaAndPaths st.tree dest
    if !ro.fieldExists then
      (Outcome.rejected ("Origin path does not exists (" ++ origin ++ ")"), st)
    else if rd.fieldExists then
      (Outcome.rejected ("Destination path already exists (" ++ dest ++ ")"), st)
    else if ro.subPaths.length != rd.subPaths.length then
      (Outcome.rejected "Origin and destination paths must refer to the same subdocument", st)
    else if !(ro.subPaths.dropLast == rd.subPaths.dropLast) then
      -- lines 500-508: the loop compares every hop before the last
      (Outcome.rejected "Origin and destination paths must refer to the same subdocument", st)
    else
      match treeGetT ro.schema (jsSplit ro.path) with
      | none => (Outcome.errored "undefined field definition", st)
      | some fieldDefinition =>
        match addSchemaField st dest fieldDefinition with
        | (Outcome.resolved _, st1) =>
          -- lines 516-522: `model.find({})`; with zero documents the move
          -- resolves at once, never removing the origin field
          if st1.docs.length == 0 then (Outcome.resolved "Field moved successfully", st1)
          else
            let docs' := st1.docs.map fun d => moveForAllSubArrays d ro.subPaths rd.path
            let st2 : DBState := ⟨st1.tree, docs'⟩
            (match removeSchemaField st2 origin removeSubdocumentIfEmpty with
             | (Outcome.resolved _, st3) => (Outcome.resolved "Field moved successfully", st3)
             | (o, st3) => (o, st3))
        | (o, st1) => (o, st1)

/-- `changeFieldDefinition` (source lines 559-580).  When the field does not
exist the `reject` of line 567 settles the promise first, but execution
continues: the inner `removeSchemaField` rejects on the same resolution
before mutating anything, so the state is returned unchanged with the first
settlement. -/
def changeFieldDefinition (st : DBState) (path : String) (newDefinition : Node) :
    Outcome × DBState :=
  if !pathIsValid path then (Outcome.rejected "The path is not valid", st)
  else
    let r := getLastSchemaAndPaths st.tree path
    let firstSettled : Option Outcome :=
      if !r.fieldExists then
        some (Outcome.rejected ("The path does not point to an existing field (" ++ path ++ ")"))
      else none
    let chain :=
      match removeSchemaField st path false with
      | (Outcome.resolved _, st1) =>
        (match addSchemaField st1 path newDefinition with
         | (Outcome.resolved _, st2) =>
           (Outcome.resolved "Field definition modified", updateDefaults st2 (r.subPaths.headD ""))
         | (o, st2) => (o, st2))
      | (o, st1) => (o, st1)
    ((match firstSettled with
      | some o => o
      | none => chain.1), chain.2)

/-- `changeFieldType` (source lines 597-647).

When the field does not exist the `reject` of line 605 settles the promise;
the code then dereferences the `undefined` retrieved definition (line 613)
and throws before reaching the schema mutation of lines 624-625, so the
state is unchanged.

When the resolved local path is empty (the empty logical path resolves to an
existing location), `objectPath.set` on an empty path is a no-op, so line
625 hands mongoose the bare attribute object: its `default`/`required`
values are rejected as schema types when present, and otherwise a root field
named `"type"` is created, after which the unconditional `resolve` of line
644 settles the promise.

On the normal path the retrieved definition object, which aliases the tree
node, has its `type`/`default`/`required` entries rewritten (lines 612-622;
other entries of a primitive definition are retained by the source and not
modelled), the node is swapped (lines 624-625), and with `keepValues` false
the bulk `$set` of the default value is dispatched; the promise settles with
the `resolve` of line 644 immediately after dispatch. -/
def changeFieldType (st : DBState) (path : String) (newType : String)
    (defaultValue : Option Val) (required keepValues : Bool) : Outcome × DBState :=
  if !pathIsValid path then (Outcome.rejected "The path is not valid", st)
  else
    let r := getLastSchemaAndPaths st.tree path
    if !r.fieldExists then
      (Outcome.rejected ("The path does not point to an existing field (" ++ path ++ ")"), st)
    else if r.path = "" then
      if defaultValue.isSome || required then (Outcome.errored "Invalid schema configuration", st)
      else
        (Outcome.resolved "Field type changed",
         ⟨treeSet st.tree ["type"] (Node.prim ⟨newType, none, none⟩), st.docs⟩)
    else
      let attrs : FieldAttrs :=
        { typeTag := newType,
          defaultTag := defaultValue.map fun _ => "set",
          requiredTag := if required then some true else none }
      let tree' := setThroughHops st.tree r.subPaths (Node.prim attrs)
      if !keepValues then
        let docs' := docsSetQ st.docs r.pathToLast r.fullPath defaultValue
        (Outcome.resolved "Field type changed", ⟨tree', docs'⟩)
      else
        (Outcome.resolved "Field type changed", ⟨tree', st.docs⟩)

/-! ### Settlement-order trace for `changeFieldType`

The state-level model above returns the first settlement; the trace below
additionally records the order between settlement attempts and the
completion of the dispatched migration, which is what the temporal claim

about `changeFieldType` is about. -/

/-- Events of one `changeFieldType` call, in program order; asynchronous
completions follow the synchronous tail of the executor. -/
inductive TEv where
  | rejectedSettle (msg : String)
  | resolvedSettle (msg : String)
  | schemaMutated
  | bulkSetCompleted (ok : Bool)
  | defaultsPassCompleted
deriving Repr, DecidableEq

/-- The event trace of `changeFieldType` (source lines 597-647) for an
existing field with a non-empty local path.  Lines 624-625 mutate the
schema; lines 627-642 dispatch the migration branch and register callbacks;
line 644 then settles the promise synchronously; only afterwards does the
dispatched bulk update or defaults pass complete and run its callback
(lines 636-637 or 640-641), whose settlement attempt is ineffective. -/
def changeFieldTypeEvents (st : DBState) (path : String) (keepValues bulkSucceeds : Bool) :
    List TEv :=
  if !pathIsValid path then [TEv.rejectedSettle "The path is not valid"]
  else
    let r := getLastSchemaAndPaths st.tree path
    if !r.fieldExists then
      [TEv.rejectedSettle ("The path does not point to an existing field (" ++ path ++ ")")]
    else if !keepValues then
      [TEv.schemaMutated,
       TEv.resolvedSettle "Field type changed",
       TEv.bulkSetCompleted bulkSucceeds,
       if bulkSucceeds then TEv.resolvedSettle "Field type changed"
       else TEv.rejectedSettle "bulk update failed"]
    else
      [TEv.schemaMutated,
       TEv.resolvedSettle "Field type changed",
       TEv.defaultsPassCompleted,
       TEv.resolvedSettle "Field type changed"]

/-- The settlement a promise takes: the first settle attempt in the trace. -/
def firstSettle : List TEv → Option TEv
  | [] => none
  | TEv.resolvedSettle m :: _ => some (TEv.resolvedSettle m)
  | TEv.rejectedSettle m :: _ => some (TEv.rejectedSettle m)
  | _ :: rest => firstSettle rest

/-- Position of the first settle attempt in the trace. -/
def firstSettleIdx : List TEv → Nat
  | [] => 0
  | TEv.resolvedSettle _ :: _ => 0
  | TEv.rejectedSettle _ :: _ => 0
  | _ :: rest => firstSettleIdx rest + 1

/-- Position of the completion of the dispatched migration branch. -/
def migrationDoneIdx : List TEv → Nat
  | [] => 0
  | TEv.bulkSetCompleted _ :: _ => 0
  | TEv.defaultsPassCompleted :: _ => 0
  | _ :: rest => migrationDoneIdx rest + 1

/-! ### Spec-side predicates

Independent formalisations of conditions the specification states in words,
used to compare the code's behaviour against them. -/

/-- The path validator's rejection condition as the spec words it: the path
starts with the separator, ends with the separator, contains two consecutive
separators, or contains the reserved `'$'` character. -/
def specRejectsPath (path : String) : Prop :=
  path.toList.head? = some '.'
  ∨ path.toList.getLast? = some '.'
  ∨ (∃ l r, path.toList = l ++ '.' :: '.' :: r)
  ∨ '$' ∈ path.toList

/-- Extensional equality of schema trees as field-name-to-node maps — the
spec's `SchemaTree` is an "ordered-irrelevant mapping", so structural
identity is path-indexed lookup equality. -/
def treeEquiv (t₁ t₂ : Tree) : Prop :=
  ∀ q : List String, treeGetT t₁ q = treeGetT t₂ q

/-- All proper dotted prefixes of a local path resolve to plain nested
objects in the given tree (the shape of a field nested in subdocuments). -/
def subChainB (t : Tree) : List String → Bool
  | [] => true
  | [_] => true
  | s :: rest =>
    match lookupField t s with
    | some (Node.sub t') => subChainB t' rest
    | _ => false

/-- No accumulated dotted prefix along the remaining segments names an
array in the tree: the shape on which the resolver's inner loop consumes
every segment into one terminal local path (a field not nested inside any
array). -/
def extendsClean (t : Tree) (cp : String) : List String → Bool
  | [] => true
  | s :: rest => !isArrayAt t cp && extendsClean t (cp ++ "." ++ s) rest

/-- The accumulated dotted prefixes along the segments stay off arrays until
the final join, which names an array: the shape of one hop of the
resolver. -/
def hopCleanB (t : Tree) (cp : String) : List String → Bool
  | [] => isArrayAt t cp
  | s :: rest => !isArrayAt t cp && hopCleanB t (cp ++ "." ++ s) rest

/-- The segment walk of a local path whose intermediate fields are plain
nested objects and whose terminal field is absent: the shape on which an
insertion at the path is undone exactly by a deletion at the path. -/
def chainOk (t : Tree) : List String → Bool
  | [] => true
  | [s] => (lookupField t s).isNone
  | s :: rest =>
    match lookupField t s with
    | some (Node.sub t') => chainOk t' rest
    | _ => false

/-- The segment walk to an array node through plain nested objects. -/
def arrWalkB (t : Tree) : List String → Bool
  | [] => false
  | [s] =>
    match lookupField t s with
    | some (Node.arr _) => true
    | _ => false
  | s :: rest =>
    match lookupField t s with
    | some (Node.sub t') => arrWalkB t' rest
    | _ => false

/-- The element tree of the array reached by `arrWalkB`. -/
def arrPayload (t : Tree) : List String → Tree
  | [] => []
  | [s] =>
    match lookupField t s with
    | some (Node.arr e) => e
    | _ => []
  | s :: rest =>
    match lookupField t s with
    | some (Node.sub t') => arrPayload t' rest
    | _ => []

/-- A resolution plan: the path's segments split into the chunks consumed at
each array level, every chunk but the last joining to an array boundary and
the last chunk staying off arrays. -/
def planOk (t : Tree) : List (List String) → Bool
  | [] => false
  | [lvl] =>
    (match lvl with
     | [] => false
     | s :: lrest => extendsClean t s lrest)
  | lvl :: rest =>
    (match lvl with
     | [] => false
     | s :: lrest =>
       hopCleanB t s lrest && planOk (elemTreeAt t (String.intercalate "." lvl)) rest)

/-- The schema level owning the plan's terminal chunk. -/
def planOwner (t : Tree) : List (List String) → Tree
  | [] => t
  | [_] => t
  | lvl :: rest => planOwner (elemTreeAt t (String.intercalate "." lvl)) rest

/-- The dotted hop strings of a plan, as they appear in `subPaths`. -/
def planJoins (levels : List (List String)) : List String :=
  levels.map fun lvl => String.intercalate "." lvl

/-- The resolver's `currentFullPath` accumulator: each array-boundary join is
appended behind a `".$[]."` marker (no marker before the first join). -/
def joinMarks (fp : String) : List String → String
  | [] => fp
  | j :: rest => joinMarks (if fp = "" then j else fp ++ ".$[]." ++ j) rest

/-- A well-formed path segment: non-empty and free of the separator. -/
def segOkB (s : String) : Bool := !(s == "") && !(s.toList.contains '.')

/-- Well-formed plan levels: every level is a non-empty list of well-formed
segments. -/
def levelsWB : List (List String) → Bool
  | [] => true
  | [] :: _ => false
  | (s :: ss) :: rest => (s :: ss).all segOkB && levelsWB rest

/-! ### Example instances used by the concrete theorems -/

def exAttrs : FieldAttrs := ⟨"String", none, none⟩

/-- `{ a: [{ b: String }] }`: an array of subdocuments containing `b`. -/
def exArrState : DBState := ⟨[("a", Node.arr [("b", Node.prim exAttrs)])], []⟩

/-- `{ a: [{ b: [{ c: [{ d: String }] }] }] }`: three array levels. -/
def exDeepTree : Tree :=
  [("a", Node.arr [("b", Node.arr [("c", Node.arr [("d", Node.prim exAttrs)])])])]

/-- `{ x: { y: { z: String } } }`: two nested subdocument levels. -/
def exNestedState : DBState := ⟨[("x", Node.sub [("y", Node.sub [("z", Node.prim exAttrs)])])], []⟩

/-- An empty schema tree and collection. -/
def exEmptyState : DBState := ⟨([] : Tree), ([] : List Val)⟩

/-- `{ age: String }` with an empty collection. -/
def exRetypeState : DBState := ⟨[("age", Node.prim exAttrs)], []⟩

/-- A tree holding a top-level empty placeholder subdocument
`{ x: {} }`. -/
def exPlaceholderState : DBState := ⟨[("x", Node.sub [])], []⟩

/-- Cascade-removal fixtures: a field inside one array of subdocuments, two
nested arrays, and three nested arrays. -/
def exArrCascadeState : DBState :=
  ⟨[("a", Node.arr [("x", Node.sub [("y", Node.prim exAttrs)])])], []⟩

def exArr2CascadeState : DBState :=
  ⟨[("a", Node.arr [("b", Node.arr [("x", Node.sub [("y", Node.prim exAttrs)])])])], []⟩

def exCascadeDeepState : DBState :=
  ⟨[("a", Node.arr [("b", Node.arr [("c", Node.arr
      [("x", Node.sub [("y", Node.prim exAttrs)])])])])], []⟩

/-! ## Theorems -/

/-! ### Shared helper lemmas -/

theorem containsAt_iff_infix {l pat : List Char} : containsAt l pat = true ↔ pat <:+: l := by
  induction l with
  | nil =>
    cases pat with
    | nil => simp [containsAt]
    | cons c cs => simp [containsAt]
  | cons c rest ih =>
    cases pat with
    | nil => simp [containsAt]
    | cons p ps =>
      rw [show containsAt (c :: rest) (p :: ps)
            = ((p :: ps).isPrefixOf (c :: rest) || containsAt rest (p :: ps)) from rfl]
      rw [List.infix_cons_iff]
      simp [List.isPrefixOf_iff_prefix, ih]

theorem jsIncludes_dollar_iff {path : String} :
    jsIncludes path "$" = true ↔ '$' ∈ path.toList := by
  have h1 : ("$" : String).toList = ['$'] := rfl
  rw [jsIncludes, h1, containsAt_iff_infix]
  constructor
  · rintro ⟨s, t, h⟩
    rw [← h]; simp
  · intro hm
    rcases List.mem_iff_append.mp hm with ⟨s, t, h⟩
    exact ⟨s, t, by rw [h]; simp⟩

theorem intercalate_go_append (sep x : String) :
    ∀ (l : List String) (acc : String),
      String.intercalate.go acc sep (l ++ [x]) = String.intercalate.go acc sep l ++ sep ++ x := by
  intro l
  induction l with
  | nil => intro acc; rfl
  | cons a as ih =>
    intro acc
    show String.intercalate.go (acc ++ sep ++ a) sep (as ++ [x])
        = String.intercalate.go (acc ++ sep ++ a) sep as ++ sep ++ x
    exact ih _

theorem intercalate_append_singleton (sep x : String) (l : List String) (h : l ≠ []) :
    String.intercalate sep (l ++ [x]) = String.intercalate sep l ++ sep ++ x := by
  cases l with
  | nil => exact absurd rfl h
  | cons a as => simp only [List.cons_append, String.intercalate, intercalate_go_append]

theorem intercalate_go_prefix (sep : String) :
    ∀ (l : List String) (acc : String), ∃ r : String, String.intercalate.go acc sep l = acc ++ r := by
  intro l
  induction l with
  | nil =>
    intro acc
    refine ⟨"", ?_⟩
    apply String.ext
    simp [String.intercalate.go]
  | cons a as ih =>
    intro acc
    rcases ih (acc ++ sep ++ a) with ⟨r, hr⟩
    refine ⟨sep ++ a ++ r, ?_⟩
    rw [String.intercalate.go, hr]
    apply String.ext
    simp

theorem append_eq_empty_left {a b : String} (h : a ++ b = "") : a = "" := by
  apply String.ext
  have := congrArg String.data h
  simp at this
  exact this.1

theorem intercalate_ne_empty (sep : String) (a : String) (as : List String) (ha : a ≠ "") :
    String.intercalate sep (a :: as) ≠ "" := by
  rw [String.intercalate]
  rcases intercalate_go_prefix sep as a with ⟨r, hr⟩
  rw [hr]
  intro hcontra
  exact ha (append_eq_empty_left hcontra)

theorem isPrefixOf_mem {pat l : List Char} (h : pat.isPrefixOf l = true) :
    ∀ c ∈ pat, c ∈ l := by
  intro c hc
  exact (List.isPrefixOf_iff_prefix.mp h).subset hc

theorem replaceFirstL_no_dollar {s : List Char} (h : '$' ∉ s) :
    replaceFirstL s ['.', '$', '[', ']'] = s := by
  induction s with
  | nil => rfl
  | cons c rest ih =>
    rw [replaceFirstL]
    have hp : (['.', '$', '[', ']'].isPrefixOf (c :: rest)) = false := by
      by_contra hcon
      simp only [Bool.not_eq_false] at hcon
      exact h (isPrefixOf_mem hcon '$' (by simp))
    rw [hp]
    simp [ih (fun hm => h (List.mem_cons_of_mem c hm))]

theorem jsIncludes_marker_false {s : String} (h : '$' ∉ s.toList) :
    jsIncludes s ".$[]" = false := by
  by_contra hcon
  simp only [Bool.not_eq_false] at hcon
  rw [jsIncludes, containsAt_iff_infix] at hcon
  have : '$' ∈ s.toList := hcon.subset (by rw [show (".$[]" : String).toList = ['.', '$', '[', ']'] from rfl]; simp)
  exact h this

theorem replaceFirstL_junction {bL : List Char} :
    ∀ aL : List Char, '$' ∉ aL →
      replaceFirstL (aL ++ '.' :: '$' :: '[' :: ']' :: '.' :: bL) ['.', '$', '[', ']']
        = aL ++ '.' :: bL := by
  intro aL
  induction aL with
  | nil =>
    intro _
    rw [List.nil_append, replaceFirstL]
    simp [List.isPrefixOf]
  | cons c aL' ih =>
    intro h
    rw [List.cons_append, replaceFirstL]
    have hp : (['.', '$', '[', ']'].isPrefixOf (c :: (aL' ++ '.' :: '$' :: '[' :: ']' :: '.' :: bL))) = false := by
      cases aL' with
      | nil => simp [List.isPrefixOf]
      | cons c' aL'' =>
        have hc' : ('$' == c') = false := by
          have hne : c' ≠ '$' := fun he => h (by simp [he])
          exact beq_eq_false_iff_ne.mpr (fun he => hne he.symm)
        simp [List.isPrefixOf, List.cons_append, hc']
    rw [hp]
    simp [ih (fun hm => h (List.mem_cons_of_mem c hm))]

theorem splitDotsL_ne_nil (l : List Char) : splitDotsL l ≠ [] := by
  cases l with
  | nil => simp [splitDotsL]
  | cons c rest =>
    rw [splitDotsL]
    split
    · simp
    · split <;> simp

theorem splitDotsL_head_cons {c : Char} (rest : List Char) (hc : c ≠ '.') :
    ∃ s ss, splitDotsL (c :: rest) = (c :: s) :: ss := by
  rw [splitDotsL, if_neg hc]
  rcases hsp : splitDotsL rest with _ | ⟨s, ss⟩
  · exact absurd hsp (splitDotsL_ne_nil rest)
  · exact ⟨s, ss, rfl⟩

theorem splitDotsL_chars {l : List Char} :
    ∀ piece ∈ splitDotsL l, ∀ c ∈ piece, c ∈ l := by
  induction l with
  | nil =>
    intro piece hp c hc
    simp [splitDotsL] at hp
    subst hp
    simp at hc
  | cons a rest ih =>
    intro piece hp c hc
    rw [splitDotsL] at hp
    by_cases ha : a = '.'
    · rw [if_pos ha] at hp
      rcases List.mem_cons.mp hp with h | h
      · subst h; simp at hc
      · exact List.mem_cons_of_mem a (ih piece h c hc)
    · rw [if_neg ha] at hp
      rcases hsp : splitDotsL rest with _ | ⟨s, ss⟩
      · exact absurd hsp (splitDotsL_ne_nil rest)
      · rw [hsp] at hp
        rcases List.mem_cons.mp hp with h | h
        · subst h
          rcases List.mem_cons.mp hc with h' | h'
          · simp [h']
          · exact List.mem_cons_of_mem a (ih s (by rw [hsp]; simp) c h')
        · exact List.mem_cons_of_mem a (ih piece (by rw [hsp]; exact List.mem_cons_of_mem s h) c hc)

theorem strApp_ne_empty_left {a : String} (b : String) (ha : a ≠ "") : a ++ b ≠ "" :=
  fun hcon => ha (append_eq_empty_left hcon)

theorem glpGo_paths_invariant :
    ∀ (segs : List String) (t : Tree) (cp fp : String) (sub : List String),
      fp = String.intercalate ".$[]." sub →
      (sub ≠ [] → fp ≠ "") →
      (sub = [] → cp ≠ "") →
      '$' ∉ cp.toList →
      (∀ s ∈ segs, '$' ∉ s.toList) →
      ∃ tail : List String,
        (glpGo t cp segs fp sub).subPaths = sub ++ tail
        ∧ tail ≠ []
        ∧ (∀ h ∈ tail, '$' ∉ h.toList)
        ∧ (glpGo t cp segs fp sub).fullPath
            = String.intercalate ".$[]." ((glpGo t cp segs fp sub).subPaths)
        ∧ (glpGo t cp segs fp sub).pathToLast
            = jsReplaceFirst
                (String.intercalate ".$[]." ((glpGo t cp segs fp sub).subPaths.dropLast))
                ".$[]" := by
  intro segs
  induction segs with
  | nil =>
    intro t cp fp sub hfp hne hcp hcpchars _hsegs
    refine ⟨[cp], rfl, by simp, by simpa using hcpchars, ?_, ?_⟩
    · show (if fp = "" then cp else fp ++ ".$[]." ++ cp)
          = String.intercalate ".$[]." (sub ++ [cp])
      rcases List.eq_nil_or_concat' sub with hsub | _
      · subst hsub
        simp only [hfp]
        rfl
      · have hfpne : fp ≠ "" := hne (by rintro rfl; simp_all)
        rw [if_neg hfpne, hfp,
          intercalate_append_singleton _ _ _ (by rintro rfl; exact hfpne hfp)]
    · show jsReplaceFirst fp ".$[]"
          = jsReplaceFirst (String.intercalate ".$[]." ((sub ++ [cp]).dropLast)) ".$[]"
      rw [List.dropLast_concat, hfp]
  | cons s rest ih =>
    intro t cp fp sub hfp hne hcp hcpchars hsegs
    rw [glpGo]
    by_cases harr : isArrayAt t cp = true
    · rw [if_pos harr]
      have hfp' : (if fp = "" then cp else fp ++ ".$[]." ++ cp)
          = String.intercalate ".$[]." (sub ++ [cp]) := by
        rcases List.eq_nil_or_concat' sub with hsub | _
        · subst hsub
          simp only [hfp]
          rfl
        · have hfpne : fp ≠ "" := hne (by rintro rfl; simp_all)
          rw [if_neg hfpne, hfp,
            intercalate_append_singleton _ _ _ (by rintro rfl; exact hfpne hfp)]
      have hne' : (if fp = "" then cp else fp ++ ".$[]." ++ cp) ≠ "" := by
        rcases List.eq_nil_or_concat' sub with hsub | _
        · subst hsub
          have hfpe : fp = "" := hfp.trans rfl
          rw [if_pos hfpe]
          exact hcp rfl
        · have hfpne : fp ≠ "" := hne (by rintro rfl; simp_all)
          rw [if_neg hfpne]
          exact strApp_ne_empty_left _ (strApp_ne_empty_left _ hfpne)
      have hne2 : sub ++ [cp] ≠ [] → String.intercalate ".$[]." (sub ++ [cp]) ≠ "" := by
        intro _
        rw [← hfp']
        exact hne'
      rw [hfp']
      rcases ih (elemTreeAt t cp) s (String.intercalate ".$[]." (sub ++ [cp])) (sub ++ [cp])
        rfl hne2 (by intro h; simp at h) (hsegs s (by simp))
        (fun s' hs' => hsegs s' (by simp [hs'])) with
        ⟨tail', h1, h2, h3, h4, h5⟩
      exact ⟨cp :: tail', by rw [h1]; simp, by simp,
        by
          intro h hh
          rcases List.mem_cons.mp hh with h' | h'
          · subst h'; exact hcpchars
          · exact h3 h h', h4, h5⟩
    · rw [if_neg harr]
      have hcpchars' : '$' ∉ (cp ++ "." ++ s).toList := by
        intro hm
        rw [show (cp ++ "." ++ s).toList = cp.toList ++ '.' :: s.toList by simp] at hm
        rcases List.mem_append.mp hm with h | h
        · exact hcpchars h
        · rcases List.mem_cons.mp h with h' | h'
          · exact absurd h' (by decide)
          · exact hsegs s (by simp) h'
      exact ih t (cp ++ "." ++ s) fp sub hfp hne
        (fun _ => by
          intro hcon
          have := congrArg String.data hcon
          simp at this)
        hcpchars' (fun s' hs' => hsegs s' (by simp [hs']))


theorem intercalate_go_factor (s : String) :
    ∀ (l : List String) (a b : String),
      String.intercalate.go (a ++ b) s l = a ++ String.intercalate.go b s l := by
  intro l
  induction l with
  | nil => intro a b; rfl
  | cons c cs ih =>
    intro a b
    show String.intercalate.go (a ++ b ++ s ++ c) s cs
        = a ++ String.intercalate.go (b ++ s ++ c) s cs
    rw [String.append_assoc, String.append_assoc, ih a (b ++ (s ++ c)),
      ← String.append_assoc b s c]

theorem intercalate_cons_cons (x y : String) (ys : List String) :
    String.intercalate "." (x :: y :: ys) = x ++ "." ++ String.intercalate "." (y :: ys) := by
  show String.intercalate.go (x ++ "." ++ y) "." ys = x ++ "." ++ String.intercalate.go y "." ys
  rw [String.append_assoc x "." y, intercalate_go_factor "." ys x ("." ++ y)]
  rw [show ("." ++ y : String) = "." ++ y from rfl]
  rw [intercalate_go_factor "." ys "." y, ← String.append_assoc]

theorem splitDotsL_no_dot_id {l : List Char} (h : '.' ∉ l) : splitDotsL l = [l] := by
  induction l with
  | nil => rfl
  | cons c rest ih =>
    rw [splitDotsL, if_neg (fun he => h (by simp [he]))]
    rw [ih (fun hm => h (List.mem_cons_of_mem c hm))]

theorem splitDotsL_append_dot {aL : List Char} (rest : List Char) (h : '.' ∉ aL) :
    splitDotsL (aL ++ '.' :: rest) = aL :: splitDotsL rest := by
  induction aL with
  | nil => rw [List.nil_append, splitDotsL, if_pos rfl]
  | cons c aL' ih =>
    rw [List.cons_append, splitDotsL, if_neg (fun he => h (by simp [he]))]
    rw [ih (fun hm => h (List.mem_cons_of_mem c hm))]

theorem jsSplit_intercalate :
    ∀ (xs : List String) (x : String), (∀ piece ∈ x :: xs, '.' ∉ piece.toList) →
      jsSplit (String.intercalate "." (x :: xs)) = x :: xs := by
  intro xs
  induction xs with
  | nil =>
    intro x hx
    show (splitDotsL x.toList).map (fun l => String.mk l) = [x]
    rw [splitDotsL_no_dot_id (hx x (by simp))]
    rfl
  | cons y ys ih =>
    intro x hx
    rw [intercalate_cons_cons]
    show (splitDotsL (x ++ "." ++ String.intercalate "." (y :: ys)).toList).map
        (fun l => String.mk l) = x :: y :: ys
    have hdata : (x ++ "." ++ String.intercalate "." (y :: ys)).toList
        = x.toList ++ '.' :: (String.intercalate "." (y :: ys)).toList := by
      simp
    rw [hdata, splitDotsL_append_dot _ (hx x (by simp))]
    have := ih y (fun piece hp => hx piece (by
      rcases List.mem_cons.mp hp with h | h
      · simp [h]
      · simp [List.mem_cons_of_mem, h]))
    rw [List.map_cons]
    rw [show String.mk x.toList = x from rfl]
    rw [show (splitDotsL (String.intercalate "." (y :: ys)).toList).map (fun l => String.mk l)
          = jsSplit (String.intercalate "." (y :: ys)) from rfl, this]

theorem glpGo_extendsClean :
    ∀ (segs : List String) (t : Tree) (cp : String),
      extendsClean t cp segs = true →
      glpGo t cp segs "" []
        = { fieldExists := existsAt t (String.intercalate "." (cp :: segs)),
            schema := t,
            path := String.intercalate "." (cp :: segs),
            fullPath := String.intercalate "." (cp :: segs),
            pathToLast := "",
            subPaths := [String.intercalate "." (cp :: segs)] } := by
  intro segs
  induction segs with
  | nil =>
    intro t cp _
    rfl
  | cons s rest ih =>
    intro t cp hclean
    rw [extendsClean, Bool.and_eq_true, Bool.not_eq_true'] at hclean
    rw [glpGo, if_neg (by rw [hclean.1]; simp)]
    rw [ih t (cp ++ "." ++ s) hclean.2]
    rw [intercalate_cons_cons]
    have : String.intercalate "." ((cp ++ "." ++ s) :: rest)
        = cp ++ "." ++ String.intercalate "." (s :: rest) := by
      cases rest with
      | nil => rfl
      | cons r rs =>
        rw [intercalate_cons_cons, intercalate_cons_cons s r rs]
        apply String.ext
        simp
    rw [this]

theorem chainOk_cons₂ (t : Tree) (s r : String) (rs : List String) :
    chainOk t (s :: r :: rs)
      = (match lookupField t s with
         | some (Node.sub t') => chainOk t' (r :: rs)
         | _ => false) := rfl

theorem chainOk_one (t : Tree) (s : String) :
    chainOk t [s] = (lookupField t s).isNone := rfl

theorem treeGetT_cons₂ (t : Tree) (s r : String) (rs : List String) :
    treeGetT t (s :: r :: rs)
      = (match lookupField t s with
         | some (Node.sub t') => treeGetT t' (r :: rs)
         | _ => none) := rfl

theorem treeGetT_one (t : Tree) (s : String) : treeGetT t [s] = lookupField t s := rfl

theorem treeSet_cons₂ (t : Tree) (s r : String) (rs : List String) (d : Node) :
    treeSet t (s :: r :: rs) d
      = (match lookupField t s with
         | some (Node.sub t') => setField t s (Node.sub (treeSet t' (r :: rs) d))
         | _ => setField t s (Node.sub (treeSet [] (r :: rs) d))) := rfl

theorem treeSet_one (t : Tree) (s : String) (d : Node) : treeSet t [s] d = setField t s d := rfl

theorem treeDel_cons₂ (t : Tree) (s r : String) (rs : List String) :
    treeDel t (s :: r :: rs)
      = (match lookupField t s with
         | some (Node.sub t') => setField t s (Node.sub (treeDel t' (r :: rs)))
         | _ => t) := rfl

theorem treeDel_one (t : Tree) (s : String) : treeDel t [s] = delField t s := rfl

theorem schemaPath_cons₂ (t : Tree) (s r : String) (rs : List String) :
    schemaPath t (s :: r :: rs)
      = (match lookupField t s with
         | some (Node.sub t') => schemaPath t' (r :: rs)
         | _ => none) := rfl

theorem schemaPath_one (t : Tree) (s : String) :
    schemaPath t [s]
      = (match lookupField t s with
         | some (Node.sub _) => none
         | x => x) := rfl

theorem treeModifyArr_cons₂ (t : Tree) (s r : String) (rs : List String) (f : Tree → Tree) :
    treeModifyArr t (s :: r :: rs) f
      = (match lookupField t s with
         | some (Node.sub t') => setField t s (Node.sub (treeModifyArr t' (r :: rs) f))
         | _ => t) := rfl

theorem treeModifyArr_one (t : Tree) (s : String) (f : Tree → Tree) :
    treeModifyArr t [s] f
      = (match lookupField t s with
         | some (Node.arr e) => setField t s (Node.arr (f e))
         | _ => t) := rfl

theorem arrWalkB_cons₂ (t : Tree) (s r : String) (rs : List String) :
    arrWalkB t (s :: r :: rs)
      = (match lookupField t s with
         | some (Node.sub t') => arrWalkB t' (r :: rs)
         | _ => false) := rfl

theorem arrWalkB_one (t : Tree) (s : String) :
    arrWalkB t [s]
      = (match lookupField t s with
         | some (Node.arr _) => true
         | _ => false) := rfl

theorem arrPayload_cons₂ (t : Tree) (s r : String) (rs : List String) :
    arrPayload t (s :: r :: rs)
      = (match lookupField t s with
         | some (Node.sub t') => arrPayload t' (r :: rs)
         | _ => []) := rfl

theorem arrPayload_one (t : Tree) (s : String) :
    arrPayload t [s]
      = (match lookupField t s with
         | some (Node.arr e) => e
         | _ => []) := rfl

/-! ### Association-list algebra for schema levels -/

theorem lookupField_setField_same (t : Tree) (k : String) (v : Node) :
    lookupField (setField t k v) k = some v := by
  induction t with
  | nil => simp [setField, lookupField]
  | cons a rest ih =>
    obtain ⟨ak, av⟩ := a
    by_cases h : ak = k
    · simp [setField, h, lookupField]
    · simp [setField, h, lookupField, ih]

theorem setField_setField (t : Tree) (k : String) (v w : Node) :
    setField (setField t k v) k w = setField t k w := by
  induction t with
  | nil => simp [setField]
  | cons a rest ih =>
    obtain ⟨ak, av⟩ := a
    by_cases h : ak = k
    · simp [setField, h]
    · simp [setField, h, ih]

theorem setField_self (t : Tree) (k : String) (v : Node)
    (h : lookupField t k = some v) : setField t k v = t := by
  induction t with
  | nil => simp [lookupField] at h
  | cons a rest ih =>
    obtain ⟨ak, av⟩ := a
    by_cases hk : ak = k
    · rw [lookupField, if_pos hk] at h
      cases h
      simp [setField, hk]
    · rw [lookupField, if_neg hk] at h
      simp [setField, hk, ih h]

theorem delField_setField_absent (t : Tree) (k : String) (v : Node)
    (h : lookupField t k = none) : delField (setField t k v) k = t := by
  induction t with
  | nil => simp [setField, delField]
  | cons a rest ih =>
    obtain ⟨ak, av⟩ := a
    by_cases hk : ak = k
    · rw [lookupField, if_pos hk] at h
      cases h
    · rw [lookupField, if_neg hk] at h
      simp [setField, hk, delField, ih h]

theorem lookupField_append_none {A : Tree} (B : Tree) (k : String)
    (h : lookupField A k = none) : lookupField (A ++ B) k = lookupField B k := by
  induction A with
  | nil => simp
  | cons a rest ih =>
    obtain ⟨ak, av⟩ := a
    by_cases hk : ak = k
    · rw [lookupField, if_pos hk] at h
      cases h
    · rw [lookupField, if_neg hk] at h
      rw [List.cons_append, lookupField, if_neg hk]
      exact ih h

theorem lookupField_append_some {A : Tree} (B : Tree) {k : String} {v : Node}
    (h : lookupField A k = some v) : lookupField (A ++ B) k = some v := by
  induction A with
  | nil => simp [lookupField] at h
  | cons a rest ih =>
    obtain ⟨ak, av⟩ := a
    by_cases hk : ak = k
    · rw [lookupField, if_pos hk] at h
      rw [List.cons_append, lookupField, if_pos hk]
      exact h
    · rw [lookupField, if_neg hk] at h
      rw [List.cons_append, lookupField, if_neg hk]
      exact ih h

theorem setField_absent_append (t : Tree) (k : String) (v : Node)
    (h : lookupField t k = none) : setField t k v = t ++ [(k, v)] := by
  induction t with
  | nil => simp [setField]
  | cons a rest ih =>
    obtain ⟨ak, av⟩ := a
    by_cases hk : ak = k
    · rw [lookupField, if_pos hk] at h
      cases h
    · rw [lookupField, if_neg hk] at h
      simp [setField, hk, ih h]

theorem setField_append_last (A : Tree) (x : String) (n m : Node)
    (h : lookupField A x = none) : setField (A ++ [(x, n)]) x m = A ++ [(x, m)] := by
  induction A with
  | nil => simp [setField]
  | cons a rest ih =>
    obtain ⟨ak, av⟩ := a
    by_cases hk : ak = x
    · rw [lookupField, if_pos hk] at h
      cases h
    · rw [lookupField, if_neg hk] at h
      simp [setField, hk, ih h]

theorem lookupField_delField_ne (t : Tree) {k x : String} (h : k ≠ x) :
    lookupField (delField t x) k = lookupField t k := by
  induction t with
  | nil => rfl
  | cons a rest ih =>
    obtain ⟨ak, av⟩ := a
    by_cases hx : ak = x
    · rw [delField, if_pos hx, lookupField, if_neg (by rw [hx]; exact fun he => h he.symm)]
    · by_cases hkk : ak = k
      · rw [delField, if_neg hx, lookupField, if_pos hkk, lookupField, if_pos hkk]
      · rw [delField, if_neg hx, lookupField, if_neg hkk, lookupField, if_neg hkk, ih]

/-! ### Insertion/deletion inverse along a clean local chain -/

theorem treeGetT_chainOk_none :
    ∀ (segs : List String) (t : Tree), chainOk t segs = true → segs ≠ [] →
      treeGetT t segs = none := by
  intro segs
  induction segs with
  | nil => intro t _ hne; exact absurd rfl hne
  | cons s rest ih =>
    intro t hc _
    cases rest with
    | nil =>
      rw [chainOk_one, Option.isNone_iff_eq_none] at hc
      rw [treeGetT_one]
      exact hc
    | cons r rs =>
      rw [chainOk_cons₂] at hc
      rw [treeGetT_cons₂]
      cases hl : lookupField t s with
      | none => rfl
      | some n =>
        rw [hl] at hc
        cases n with
        | prim a => rfl
        | arr e => rfl
        | sub t' => exact ih t' hc (by simp)

theorem treeGetT_treeSet_chain :
    ∀ (segs : List String) (t : Tree) (d : Node), chainOk t segs = true → segs ≠ [] →
      treeGetT (treeSet t segs d) segs = some d := by
  intro segs
  induction segs with
  | nil => intro t d _ hne; exact absurd rfl hne
  | cons s rest ih =>
    intro t d hc _
    cases rest with
    | nil =>
      rw [treeSet_one, treeGetT_one]
      exact lookupField_setField_same t s d
    | cons r rs =>
      rw [chainOk_cons₂] at hc
      cases hl : lookupField t s with
      | none => rw [hl] at hc; simp at hc
      | some n =>
        rw [hl] at hc
        cases n with
        | prim a => simp at hc
        | arr e => simp at hc
        | sub t' =>
          have hset : treeSet t (s :: r :: rs) d
              = setField t s (Node.sub (treeSet t' (r :: rs) d)) := by
            rw [treeSet_cons₂, hl]
          have hget : treeGetT (setField t s (Node.sub (treeSet t' (r :: rs) d))) (s :: r :: rs)
              = treeGetT (treeSet t' (r :: rs) d) (r :: rs) := by
            rw [treeGetT_cons₂, lookupField_setField_same]
          rw [hset, hget]
          exact ih t' d hc (by simp)

theorem treeDel_treeSet_chain :
    ∀ (segs : List String) (t : Tree) (d : Node), chainOk t segs = true → segs ≠ [] →
      treeDel (treeSet t segs d) segs = t := by
  intro segs
  induction segs with
  | nil => intro t d _ hne; exact absurd rfl hne
  | cons s rest ih =>
    intro t d hc _
    cases rest with
    | nil =>
      rw [chainOk_one, Option.isNone_iff_eq_none] at hc
      rw [treeSet_one, treeDel_one]
      exact delField_setField_absent t s d hc
    | cons r rs =>
      rw [chainOk_cons₂] at hc
      cases hl : lookupField t s with
      | none => rw [hl] at hc; simp at hc
      | some n =>
        rw [hl] at hc
        cases n with
        | prim a => simp at hc
        | arr e => simp at hc
        | sub t' =>
          have hset : treeSet t (s :: r :: rs) d
              = setField t s (Node.sub (treeSet t' (r :: rs) d)) := by
            rw [treeSet_cons₂, hl]
          have hdel : treeDel (setField t s (Node.sub (treeSet t' (r :: rs) d))) (s :: r :: rs)
              = setField (setField t s (Node.sub (treeSet t' (r :: rs) d))) s
                  (Node.sub (treeDel (treeSet t' (r :: rs) d) (r :: rs))) := by
            rw [treeDel_cons₂, lookupField_setField_same]
          rw [hset, hdel, ih t' d hc (by simp), setField_setField]
          exact setField_self t s (Node.sub t') hl

/-! ### Array walks and element-tree edits -/

theorem arrWalkB_of_schemaPath_arr :
    ∀ (segs : List String) (t : Tree) (e : Tree),
      schemaPath t segs = some (Node.arr e) →
      arrWalkB t segs = true ∧ arrPayload t segs = e := by
  intro segs
  induction segs with
  | nil => intro t e h; rw [schemaPath] at h; cases h
  | cons s rest ih =>
    intro t e h
    cases rest with
    | nil =>
      rw [schemaPath_one] at h
      cases hl : lookupField t s with
      | none => rw [hl] at h; cases h
      | some n =>
        rw [hl] at h
        cases n with
        | prim a => rw [show (match (some (Node.prim a) : Option Node) with
            | some (Node.sub _) => none | x => x) = some (Node.prim a) from rfl] at h; cases h
        | sub t' => rw [show (match (some (Node.sub t') : Option Node) with
            | some (Node.sub _) => none | x => x) = (none : Option Node) from rfl] at h; cases h
        | arr e' =>
          rw [show (match (some (Node.arr e') : Option Node) with
            | some (Node.sub _) => none | x => x) = some (Node.arr e') from rfl] at h
          cases h
          refine ⟨?_, ?_⟩
          · rw [arrWalkB_one, hl]
          · rw [arrPayload_one, hl]
    | cons r rs =>
      rw [schemaPath_cons₂] at h
      cases hl : lookupField t s with
      | none => rw [hl] at h; cases h
      | some n =>
        rw [hl] at h
        cases n with
        | prim a => cases h
        | arr e' => cases h
        | sub t' =>
          have := ih t' e h
          refine ⟨?_, ?_⟩
          · rw [arrWalkB_cons₂, hl]; exact this.1
          · rw [arrPayload_cons₂, hl]; exact this.2

theorem treeModifyArr_comp :
    ∀ (segs : List String) (t : Tree) (f g : Tree → Tree), arrWalkB t segs = true →
      treeModifyArr (treeModifyArr t segs f) segs g
        = treeModifyArr t segs (fun e => g (f e)) := by
  intro segs
  induction segs with
  | nil => intro t f g h; rw [arrWalkB] at h; cases h
  | cons s rest ih =>
    intro t f g h
    cases rest with
    | nil =>
      rw [arrWalkB_one] at h
      cases hl : lookupField t s with
      | none => rw [hl] at h; cases h
      | some n =>
        rw [hl] at h
        cases n with
        | prim a => cases h
        | sub t' => cases h
        | arr e =>
          have h1 : treeModifyArr t [s] f = setField t s (Node.arr (f e)) := by
            rw [treeModifyArr_one, hl]
          have h2 : treeModifyArr (setField t s (Node.arr (f e))) [s] g
              = setField (setField t s (Node.arr (f e))) s (Node.arr (g (f e))) := by
            rw [treeModifyArr_one, lookupField_setField_same]
          have h3 : treeModifyArr t [s] (fun e => g (f e)) = setField t s (Node.arr (g (f e))) := by
            rw [treeModifyArr_one, hl]
          rw [h1, h2, h3, setField_setField]
    | cons r rs =>
      rw [arrWalkB_cons₂] at h
      cases hl : lookupField t s with
      | none => rw [hl] at h; cases h
      | some n =>
        rw [hl] at h
        cases n with
        | prim a => cases h
        | arr e => cases h
        | sub t' =>
          have h1 : treeModifyArr t (s :: r :: rs) f
              = setField t s (Node.sub (treeModifyArr t' (r :: rs) f)) := by
            rw [treeModifyArr_cons₂, hl]
          have h2 : treeModifyArr (setField t s (Node.sub (treeModifyArr t' (r :: rs) f)))
                (s :: r :: rs) g
              = setField (setField t s (Node.sub (treeModifyArr t' (r :: rs) f))) s
                  (Node.sub (treeModifyArr (treeModifyArr t' (r :: rs) f) (r :: rs) g)) := by
            rw [treeModifyArr_cons₂, lookupField_setField_same]
          have h3 : treeModifyArr t (s :: r :: rs) (fun e => g (f e))
              = setField t s (Node.sub (treeModifyArr t' (r :: rs) (fun e => g (f e)))) := by
            rw [treeModifyArr_cons₂, hl]
          rw [h1, h2, h3, setField_setField, ih t' f g h]

theorem treeModifyArr_fix :
    ∀ (segs : List String) (t : Tree) (f : Tree → Tree), arrWalkB t segs = true →
      f (arrPayload t segs) = arrPayload t segs →
      treeModifyArr t segs f = t := by
  intro segs
  induction segs with
  | nil => intro t f h _; rw [arrWalkB] at h; cases h
  | cons s rest ih =>
    intro t f h hfix
    cases rest with
    | nil =>
      rw [arrWalkB_one] at h
      cases hl : lookupField t s with
      | none => rw [hl] at h; cases h
      | some n =>
        rw [hl] at h
        cases n with
        | prim a => cases h
        | sub t' => cases h
        | arr e =>
          have hp : arrPayload t [s] = e := by rw [arrPayload_one, hl]
          rw [hp] at hfix
          have h1 : treeModifyArr t [s] f = setField t s (Node.arr (f e)) := by
            rw [treeModifyArr_one, hl]
          rw [h1, hfix]
          exact setField_self t s (Node.arr e) hl
    | cons r rs =>
      rw [arrWalkB_cons₂] at h
      cases hl : lookupField t s with
      | none => rw [hl] at h; cases h
      | some n =>
        rw [hl] at h
        cases n with
        | prim a => cases h
        | arr e => cases h
        | sub t' =>
          have hp : arrPayload t (s :: r :: rs) = arrPayload t' (r :: rs) := by
            rw [arrPayload_cons₂, hl]
          rw [hp] at hfix
          have h1 : treeModifyArr t (s :: r :: rs) f
              = setField t s (Node.sub (treeModifyArr t' (r :: rs) f)) := by
            rw [treeModifyArr_cons₂, hl]
          rw [h1, ih t' f h hfix]
          exact setField_self t s (Node.sub t') hl

/-! ### Plan-shaped resolution -/

theorem planOk_one (t : Tree) (lvl : List String) :
    planOk t [lvl]
      = (match lvl with
         | [] => false
         | s :: lrest => extendsClean t s lrest) := rfl

theorem planOk_cons₂ (t : Tree) (lvl lvl₂ : List String) (rest : List (List String)) :
    planOk t (lvl :: lvl₂ :: rest)
      = (match lvl with
         | [] => false
         | s :: lrest =>
           hopCleanB t s lrest
             && planOk (elemTreeAt t (String.intercalate "." lvl)) (lvl₂ :: rest)) := rfl

theorem planOwner_one (t : Tree) (lvl : List String) : planOwner t [lvl] = t := rfl

theorem planOwner_cons₂ (t : Tree) (lvl lvl₂ : List String) (rest : List (List String)) :
    planOwner t (lvl :: lvl₂ :: rest)
      = planOwner (elemTreeAt t (String.intercalate "." lvl)) (lvl₂ :: rest) := rfl

theorem intercalate_assoc_head (cp s : String) (rest : List String) :
    String.intercalate "." ((cp ++ "." ++ s) :: rest)
      = cp ++ "." ++ String.intercalate "." (s :: rest) := by
  cases rest with
  | nil => rfl
  | cons r rs =>
    rw [intercalate_cons_cons, intercalate_cons_cons s r rs]
    apply String.ext
    simp

theorem isArrayAt_arr {t : Tree} {cp : String} (h : isArrayAt t cp = true) :
    schemaPath t (jsSplit cp) = some (Node.arr (elemTreeAt t cp)) := by
  rw [isArrayAt] at h
  rw [elemTreeAt]
  cases hs : schemaPath t (jsSplit cp) with
  | none => rw [hs] at h; cases h
  | some n =>
    rw [hs] at h
    cases n with
    | prim a => cases h
    | sub t' => cases h
    | arr e => rfl

theorem hopCleanB_isArrayAt :
    ∀ (lrest : List String) (t : Tree) (cp : String), hopCleanB t cp lrest = true →
      isArrayAt t (String.intercalate "." (cp :: lrest)) = true := by
  intro lrest
  induction lrest with
  | nil => intro t cp h; rw [hopCleanB] at h; exact h
  | cons r rs ih =>
    intro t cp h
    rw [hopCleanB, Bool.and_eq_true] at h
    have := ih t (cp ++ "." ++ r) h.2
    rw [intercalate_assoc_head] at this
    rw [intercalate_cons_cons]
    exact this

theorem glpGo_extendsClean_gen :
    ∀ (segs : List String) (t : Tree) (cp fp : String) (sub : List String),
      extendsClean t cp segs = true →
      glpGo t cp segs fp sub
        = { fieldExists := existsAt t (String.intercalate "." (cp :: segs)),
            schema := t,
            path := String.intercalate "." (cp :: segs),
            fullPath :=
              if fp = "" then String.intercalate "." (cp :: segs)
              else fp ++ ".$[]." ++ String.intercalate "." (cp :: segs),
            pathToLast := jsReplaceFirst fp ".$[]",
            subPaths := sub ++ [String.intercalate "." (cp :: segs)] } := by
  intro segs
  induction segs with
  | nil =>
    intro t cp fp sub _
    rfl
  | cons s rest ih =>
    intro t cp fp sub hclean
    rw [extendsClean, Bool.and_eq_true, Bool.not_eq_true'] at hclean
    rw [glpGo, if_neg (by rw [hclean.1]; simp)]
    rw [ih t (cp ++ "." ++ s) fp sub hclean.2]
    rw [intercalate_assoc_head, intercalate_cons_cons]

theorem glpGo_walkArr :
    ∀ (lrest : List String) (t : Tree) (cp : String), hopCleanB t cp lrest = true →
      ∀ (s' : String) (rest' : List String) (fp : String) (sub : List String),
        glpGo t cp (lrest ++ s' :: rest') fp sub
          = glpGo (elemTreeAt t (String.intercalate "." (cp :: lrest))) s' rest'
              (if fp = "" then String.intercalate "." (cp :: lrest)
               else fp ++ ".$[]." ++ String.intercalate "." (cp :: lrest))
              (sub ++ [String.intercalate "." (cp :: lrest)]) := by
  intro lrest
  induction lrest with
  | nil =>
    intro t cp h s' rest' fp sub
    rw [hopCleanB] at h
    rw [List.nil_append, glpGo, if_pos h]
    rfl
  | cons r rs ih =>
    intro t cp h s' rest' fp sub
    rw [hopCleanB, Bool.and_eq_true, Bool.not_eq_true'] at h
    rw [List.cons_append, glpGo, if_neg (by rw [h.1]; simp)]
    rw [ih t (cp ++ "." ++ r) h.2 s' rest' fp sub]
    rw [intercalate_assoc_head, intercalate_cons_cons]

theorem planJoins_cons (lvl : List String) (rest : List (List String)) :
    planJoins (lvl :: rest) = String.intercalate "." lvl :: planJoins rest := rfl

theorem joinMarks_cons (fp j : String) (rest : List String) :
    joinMarks fp (j :: rest)
      = joinMarks (if fp = "" then j else fp ++ ".$[]." ++ j) rest := rfl

theorem glpGo_plan :
    ∀ (levels : List (List String)) (lrest : List String) (t : Tree) (s fp : String)
      (sub : List String),
      planOk t ((s :: lrest) :: levels) = true →
      (∀ lvl ∈ levels, lvl ≠ []) →
      glpGo t s (lrest ++ levels.flatten) fp sub
        = { fieldExists := existsAt (planOwner t ((s :: lrest) :: levels))
              (String.intercalate "." (levels.getLastD (s :: lrest))),
            schema := planOwner t ((s :: lrest) :: levels),
            path := String.intercalate "." (levels.getLastD (s :: lrest)),
            fullPath := joinMarks fp (planJoins ((s :: lrest) :: levels)),
            pathToLast :=
              jsReplaceFirst (joinMarks fp (planJoins ((s :: lrest) :: levels)).dropLast) ".$[]",
            subPaths := sub ++ planJoins ((s :: lrest) :: levels) } := by
  intro levels
  induction levels with
  | nil =>
    intro lrest t s fp sub hplan _
    have hpl : extendsClean t s lrest = true := hplan
    rw [List.flatten_nil, List.append_nil]
    rw [glpGo_extendsClean_gen lrest t s fp sub hpl]
    rfl
  | cons lvl₂ more ih =>
    intro lrest t s fp sub hplan hnz
    obtain ⟨s₂, lrest₂, rfl⟩ : ∃ a b, lvl₂ = a :: b := by
      cases hl2 : lvl₂ with
      | nil => exact absurd hl2 (hnz lvl₂ (by simp))
      | cons a b => exact ⟨a, b, rfl⟩
    have hsplit : hopCleanB t s lrest = true
        ∧ planOk (elemTreeAt t (String.intercalate "." (s :: lrest)))
            ((s₂ :: lrest₂) :: more) = true := by
      have h' : (hopCleanB t s lrest
          && planOk (elemTreeAt t (String.intercalate "." (s :: lrest)))
              ((s₂ :: lrest₂) :: more)) = true := hplan
      rw [Bool.and_eq_true] at h'
      exact h'
    have hflat : (((s₂ :: lrest₂) :: more).flatten : List String)
        = s₂ :: (lrest₂ ++ more.flatten) := by
      rw [List.flatten_cons, List.cons_append]
    rw [hflat]
    rw [glpGo_walkArr lrest t s hsplit.1 s₂ (lrest₂ ++ more.flatten) fp sub]
    rw [ih lrest₂ (elemTreeAt t (String.intercalate "." (s :: lrest))) s₂
      (if fp = "" then String.intercalate "." (s :: lrest)
       else fp ++ ".$[]." ++ String.intercalate "." (s :: lrest))
      (sub ++ [String.intercalate "." (s :: lrest)]) hsplit.2
      (fun lvl hm => hnz lvl (by simp [hm]))]
    rw [planOwner_cons₂ t (s :: lrest) (s₂ :: lrest₂) more, List.getLastD_cons,
      planJoins_cons (s :: lrest) ((s₂ :: lrest₂) :: more),
      planJoins_cons (s₂ :: lrest₂) more, List.dropLast_cons₂,
      joinMarks_cons fp (String.intercalate "." (s :: lrest))]
    simp [List.append_assoc]
    rw [joinMarks_cons fp (String.intercalate "." (s :: lrest))
      ((String.intercalate "." (s₂ :: lrest₂) :: planJoins more).dropLast)]

/-! ### Well-formed levels and the hop-routed inverse -/

theorem setThroughHops_one (t : Tree) (last : String) (d : Node) :
    setThroughHops t [last] d = treeSet t (jsSplit last) d := rfl

theorem setThroughHops_cons₂ (t : Tree) (hop r : String) (rs : List String) (d : Node) :
    setThroughHops t (hop :: r :: rs) d
      = treeModifyArr t (jsSplit hop) (fun e => setThroughHops e (r :: rs) d) := rfl

theorem delThroughHops_one (t : Tree) (last : String) :
    delThroughHops t [last] = treeDel t (jsSplit last) := rfl

theorem delThroughHops_cons₂ (t : Tree) (hop r : String) (rs : List String) :
    delThroughHops t (hop :: r :: rs)
      = treeModifyArr t (jsSplit hop) (fun e => delThroughHops e (r :: rs)) := rfl

theorem levelsWB_cons (s : String) (ss : List String) (rest : List (List String)) :
    levelsWB ((s :: ss) :: rest) = ((s :: ss).all segOkB && levelsWB rest) := rfl

theorem segOkB_spec {s : String} (h : segOkB s = true) : s ≠ "" ∧ '.' ∉ s.toList := by
  simp [segOkB] at h
  exact h

theorem levelsWB_head {lvl : List String} {rest : List (List String)}
    (h : levelsWB (lvl :: rest) = true) :
    (∃ a b, lvl = a :: b) ∧ levelsWB rest = true ∧ ∀ seg ∈ lvl, segOkB seg = true := by
  cases lvl with
  | nil => cases h
  | cons a b =>
    rw [levelsWB_cons, Bool.and_eq_true, List.all_eq_true] at h
    exact ⟨⟨a, b, rfl⟩, h.2, h.1⟩

theorem jsSplit_join {s : String} {ss : List String}
    (h : ∀ seg ∈ s :: ss, segOkB seg = true) :
    jsSplit (String.intercalate "." (s :: ss)) = s :: ss := by
  exact jsSplit_intercalate ss s (fun piece hp => (segOkB_spec (h piece hp)).2)

theorem getLastD_irrel {α : Type} (b : α) (l : List α) (x y : α) :
    (b :: l).getLastD x = (b :: l).getLastD y := by
  rw [List.getLastD_cons, List.getLastD_cons]

theorem delThroughHops_setThroughHops :
    ∀ (levels : List (List String)) (t : Tree) (d : Node),
      levelsWB levels = true → levels ≠ [] →
      planOk t levels = true →
      chainOk (planOwner t levels) (levels.getLastD []) = true →
      delThroughHops (setThroughHops t (planJoins levels) d) (planJoins levels) = t := by
  intro levels
  induction levels with
  | nil => intro t d _ hne _ _; exact absurd rfl hne
  | cons lvl rest ih =>
    intro t d hwb _ hplan hchain
    obtain ⟨⟨s, ss, rfl⟩, hwbr, hsegs⟩ := levelsWB_head hwb
    cases rest with
    | nil =>
      show delThroughHops
          (setThroughHops t [String.intercalate "." (s :: ss)] d)
          [String.intercalate "." (s :: ss)] = t
      rw [setThroughHops_one, delThroughHops_one, jsSplit_join hsegs]
      have hch : chainOk t (s :: ss) = true := hchain
      exact treeDel_treeSet_chain (s :: ss) t d hch (by simp)
    | cons lvl₂ more =>
      obtain ⟨⟨s₂, ss₂, rfl⟩, _, _⟩ := levelsWB_head hwbr
      have hsplit : hopCleanB t s ss = true
          ∧ planOk (elemTreeAt t (String.intercalate "." (s :: ss)))
              ((s₂ :: ss₂) :: more) = true := by
        have h' : (hopCleanB t s ss
            && planOk (elemTreeAt t (String.intercalate "." (s :: ss)))
                ((s₂ :: ss₂) :: more)) = true := hplan
        rw [Bool.and_eq_true] at h'
        exact h'
      have harr := isArrayAt_arr (hopCleanB_isArrayAt ss t s hsplit.1)
      rw [jsSplit_join hsegs] at harr
      have hwalk := arrWalkB_of_schemaPath_arr (s :: ss) t
        (elemTreeAt t (String.intercalate "." (s :: ss))) harr
      rw [planJoins_cons (s :: ss) ((s₂ :: ss₂) :: more),
        planJoins_cons (s₂ :: ss₂) more]
      rw [setThroughHops_cons₂, delThroughHops_cons₂, jsSplit_join hsegs]
      rw [treeModifyArr_comp (s :: ss) t _ _ hwalk.1]
      apply treeModifyArr_fix (s :: ss) t _ hwalk.1
      rw [hwalk.2]
      have hinner := ih (elemTreeAt t (String.intercalate "." (s :: ss))) d hwbr
        (by simp) hsplit.2
        (by
          have h1 : planOwner t ((s :: ss) :: (s₂ :: ss₂) :: more)
              = planOwner (elemTreeAt t (String.intercalate "." (s :: ss)))
                  ((s₂ :: ss₂) :: more) := planOwner_cons₂ t (s :: ss) (s₂ :: ss₂) more
          have h2 : (((s :: ss) :: (s₂ :: ss₂) :: more).getLastD ([] : List String))
              = (((s₂ :: ss₂) :: more).getLastD ([] : List String)) := by
            rw [List.getLastD_cons]
            exact (getLastD_irrel (s₂ :: ss₂) more (s :: ss) []).symm ▸ rfl
          rw [h1, h2] at hchain
          exact hchain)
      rw [planJoins_cons (s₂ :: ss₂) more] at hinner
      exact hinner

theorem levelsWB_mem :
    ∀ (levels : List (List String)), levelsWB levels = true →
      ∀ lvl ∈ levels, (∃ a b, lvl = a :: b) ∧ ∀ seg ∈ lvl, segOkB seg = true := by
  intro levels
  induction levels with
  | nil => intro _ lvl hm; simp at hm
  | cons l rest ih =>
    intro h lvl hm
    obtain ⟨hsh, hr, hsegs⟩ := levelsWB_head h
    rcases List.mem_cons.mp hm with he | hm'
    · subst he; exact ⟨hsh, hsegs⟩
    · exact ih hr lvl hm'

theorem levelsWB_flatten_segOk :
    ∀ (levels : List (List String)), levelsWB levels = true →
      ∀ x ∈ levels.flatten, segOkB x = true := by
  intro levels hwb x hm
  rw [List.mem_flatten] at hm
  obtain ⟨lvl, hlvl, hx⟩ := hm
  exact (levelsWB_mem levels hwb lvl hlvl).2 x hx

theorem getLastD_mem {α : Type} :
    ∀ (l : List α) (d : α), l ≠ [] → l.getLastD d ∈ l := by
  intro l
  induction l with
  | nil => intro d h; exact absurd rfl h
  | cons a l' ih =>
    intro d _
    rw [List.getLastD_cons]
    cases l' with
    | nil => simp [List.getLastD]
    | cons b bs => exact List.mem_cons_of_mem a (ih a (by simp))

theorem planned_add_remove_round_trip (st : DBState) (levels : List (List String)) (d : Node)
    (hwb : levelsWB levels = true)
    (hne : levels ≠ [])
    (hv : pathIsValid (String.intercalate "." levels.flatten) = true)
    (hplan : planOk st.tree levels = true)
    (hchain : chainOk (planOwner st.tree levels) (levels.getLastD ([] : List String)) = true)
    (hnp : 1 < (levels.getLastD ([] : List String)).length →
      isEmptyPlaceholder (treeGetT (planOwner st.tree levels)
        (levels.getLastD ([] : List String)).dropLast) = false)
    (hplan' : planOk (setThroughHops st.tree (planJoins levels) d) levels = true)
    (hex' : (treeGetT (planOwner (setThroughHops st.tree (planJoins levels) d) levels)
        (levels.getLastD ([] : List String))).isSome = true) :
    (addSchemaField st (String.intercalate "." levels.flatten) d).1
        = Outcome.resolved "Field added successfully"
    ∧ (removeSchemaField (addSchemaField st (String.intercalate "." levels.flatten) d).2
        (String.intercalate "." levels.flatten) false).1
        = Outcome.resolved "Field removed successfully"
    ∧ (removeSchemaField (addSchemaField st (String.intercalate "." levels.flatten) d).2
        (String.intercalate "." levels.flatten) false).2.tree = st.tree := by
  obtain ⟨lvl₁, rlv, rfl⟩ : ∃ a b, levels = a :: b := by
    cases levels with
    | nil => exact absurd rfl hne
    | cons a b => exact ⟨a, b, rfl⟩
  obtain ⟨⟨s, ss, rfl⟩, hwbr, hsegs₁⟩ := levelsWB_head hwb
  have hnz : ∀ lvl ∈ rlv, lvl ≠ [] := by
    intro lvl hm
    obtain ⟨⟨a, b, he⟩, _⟩ := levelsWB_mem rlv hwbr lvl hm
    rw [he]
    simp
  have hflat : (((s :: ss) :: rlv).flatten : List String) = s :: (ss ++ rlv.flatten) := by
    rw [List.flatten_cons, List.cons_append]
  rw [hflat] at hv ⊢
  have hdots : ∀ piece ∈ s :: (ss ++ rlv.flatten), '.' ∉ piece.toList := by
    intro piece hp
    refine (segOkB_spec (levelsWB_flatten_segOk ((s :: ss) :: rlv) hwb piece ?_)).2
    rw [hflat]
    exact hp
  have hsplit : jsSplit (String.intercalate "." (s :: (ss ++ rlv.flatten)))
      = s :: (ss ++ rlv.flatten) := jsSplit_intercalate (ss ++ rlv.flatten) s hdots
  -- the terminal level
  have hLeq : (((s :: ss) :: rlv).getLastD ([] : List String)) = rlv.getLastD (s :: ss) :=
    List.getLastD_cons [] (s :: ss) rlv
  rw [hLeq] at hchain hnp hex'
  have hLmem : rlv.getLastD (s :: ss) ∈ (s :: ss) :: rlv := by
    rw [← hLeq]
    exact getLastD_mem ((s :: ss) :: rlv) [] (by simp)
  obtain ⟨⟨ls, lss, hLshape⟩, hLsegs⟩ := levelsWB_mem ((s :: ss) :: rlv) hwb _ hLmem
  have hLne : rlv.getLastD (s :: ss) ≠ [] := by rw [hLshape]; simp
  have hJne : String.intercalate "." (rlv.getLastD (s :: ss)) ≠ "" := by
    rw [hLshape]
    exact intercalate_ne_empty "." ls lss (segOkB_spec (hLsegs ls (by rw [hLshape]; simp))).1
  have hLsplit : jsSplit (String.intercalate "." (rlv.getLastD (s :: ss)))
      = rlv.getLastD (s :: ss) := by
    rw [hLshape]
    exact jsSplit_join (fun seg hm => hLsegs seg (by rw [hLshape]; exact hm))
  -- resolution in the original tree
  have hres : getLastSchemaAndPaths st.tree (String.intercalate "." (s :: (ss ++ rlv.flatten)))
      = glpGo st.tree s (ss ++ rlv.flatten) "" [] := by
    rw [getLastSchemaAndPaths, hsplit]
    rfl
  have hglp := glpGo_plan rlv ss st.tree s "" [] hplan hnz
  have hexF : existsAt (planOwner st.tree ((s :: ss) :: rlv))
      (String.intercalate "." (rlv.getLastD (s :: ss))) = false := by
    rw [existsAt, if_neg hJne, hLsplit,
      treeGetT_chainOk_none (rlv.getLastD (s :: ss)) _ hchain hLne]
    rfl
  -- the add
  have hadd : addSchemaField st (String.intercalate "." (s :: (ss ++ rlv.flatten))) d
      = (Outcome.resolved "Field added successfully",
         ⟨setThroughHops st.tree (planJoins ((s :: ss) :: rlv)) d, st.docs⟩) := by
    rw [addSchemaField]
    simp only [hv, Bool.not_true, Bool.false_eq_true, if_false]
    rw [hres, hglp]
    simp only [hexF, Bool.false_eq_true, if_false, hLsplit]
    by_cases hlen : (rlv.getLastD (s :: ss)).length > 1
    · rw [if_pos hlen, hnp hlen]
      simp only [Bool.false_eq_true, if_false, isEmptyPlaceholder]
      rw [addSchemaAux]
      simp only [List.nil_append]
      rfl
    · rw [if_neg hlen, addSchemaAux]
      simp only [List.nil_append]
      rfl
  refine ⟨by rw [hadd], ?_, ?_⟩
  all_goals
    rw [hadd]
  -- resolution in the post-add tree
  all_goals
    have hglp' := glpGo_plan rlv ss
      (setThroughHops st.tree (planJoins ((s :: ss) :: rlv)) d) s "" [] hplan' hnz
    have hres' : getLastSchemaAndPaths
        (setThroughHops st.tree (planJoins ((s :: ss) :: rlv)) d)
        (String.intercalate "." (s :: (ss ++ rlv.flatten)))
        = glpGo (setThroughHops st.tree (planJoins ((s :: ss) :: rlv)) d) s
            (ss ++ rlv.flatten) "" [] := by
      rw [getLastSchemaAndPaths, hsplit]
      rfl
    have hexT : existsAt
        (planOwner (setThroughHops st.tree (planJoins ((s :: ss) :: rlv)) d)
          ((s :: ss) :: rlv))
        (String.intercalate "." (rlv.getLastD (s :: ss))) = true := by
      rw [existsAt, if_neg hJne, hLsplit]
      exact hex'
    have hrem : removeSchemaField
        ⟨setThroughHops st.tree (planJoins ((s :: ss) :: rlv)) d, st.docs⟩
        (String.intercalate "." (s :: (ss ++ rlv.flatten))) false
        = (Outcome.resolved "Field removed successfully",
           ⟨delThroughHops (setThroughHops st.tree (planJoins ((s :: ss) :: rlv)) d)
              (planJoins ((s :: ss) :: rlv)),
            docsUnset st.docs
              (jsReplaceFirst (joinMarks "" (planJoins ((s :: ss) :: rlv)).dropLast) ".$[]")
              (joinMarks "" (planJoins ((s :: ss) :: rlv)))⟩) := by
      rw [removeSchemaField, removeSchemaFieldCore]
      simp only [hv, Bool.not_true, Bool.false_eq_true, if_false]
      rw [hres', hglp']
      simp only [hexT, Bool.not_true, Bool.false_eq_true, if_false, List.nil_append]
    rw [hrem]
  exact delThroughHops_setThroughHops ((s :: ss) :: rlv) st.tree d hwb (by simp) hplan
    (by rw [hLeq]; exact hchain)

/-! ### The empty-placeholder parent round trip -/

theorem string_mk_toList (s : String) : String.mk s.toList = s := rfl

theorem jsSplit_two {x f : String} (hx : '.' ∉ x.toList) (hf : '.' ∉ f.toList) :
    jsSplit (x ++ "." ++ f) = [x, f] := by
  rw [jsSplit]
  have h : (x ++ "." ++ f).toList = x.toList ++ '.' :: f.toList := by
    simp
  rw [h, splitDotsL_append_dot f.toList hx, splitDotsL_no_dot_id hf]
  simp [string_mk_toList]

theorem jsSplit_single {x : String} (hx : '.' ∉ x.toList) : jsSplit x = [x] := by
  rw [jsSplit, splitDotsL_no_dot_id hx]
  simp [string_mk_toList]

theorem treeGetT_ext {t₁ t₂ : Tree} (hk : ∀ k, lookupField t₁ k = lookupField t₂ k) :
    ∀ q, treeGetT t₁ q = treeGetT t₂ q := by
  intro q
  cases q with
  | nil => rfl
  | cons k qs =>
    cases qs with
    | nil => rw [treeGetT_one, treeGetT_one, hk k]
    | cons r rs => rw [treeGetT_cons₂, treeGetT_cons₂, hk k]

theorem treeEquiv_readd (t : Tree) (x : String) (n m : Node)
    (hx : lookupField t x = some n)
    (hnodup : lookupField (delField t x) x = none)
    (hnm : n = m) :
    treeEquiv (delField t x ++ [(x, m)]) t := by
  apply treeGetT_ext
  intro k
  by_cases hk : k = x
  · subst hk
    rw [lookupField_append_none [(k, m)] k hnodup, hx, ← hnm]
    simp [lookupField]
  · cases hl : lookupField (delField t x) k with
    | some w =>
      rw [lookupField_append_some [(x, m)] hl, ← hl, lookupField_delField_ne t hk]
    | none =>
      rw [lookupField_append_none [(x, m)] k hl]
      rw [lookupField_delField_ne t hk] at hl
      rw [hl, lookupField, if_neg (fun he : x = k => hk he.symm)]
      rfl

theorem placeholder_add_remove_round_trip (st : DBState) (x f : String) (d : Node)
    (hx : x ≠ "") (hxd : '.' ∉ x.toList) (hfd : '.' ∉ f.toList)
    (hv : pathIsValid (x ++ "." ++ f) = true)
    (hvx : pathIsValid x = true)
    (hlook : lookupField st.tree x = some (Node.sub []))
    (hnodup : lookupField (delField st.tree x) x = none) :
    (addSchemaField st (x ++ "." ++ f) d).1 = Outcome.resolved "Field added successfully"
    ∧ (removeSchemaField (addSchemaField st (x ++ "." ++ f) d).2 (x ++ "." ++ f) false).1
        = Outcome.resolved "Field removed successfully"
    ∧ treeEquiv
        ((removeSchemaField (addSchemaField st (x ++ "." ++ f) d).2
            (x ++ "." ++ f) false).2.tree)
        st.tree := by
  have hsplitp : jsSplit (x ++ "." ++ f) = [x, f] := jsSplit_two hxd hfd
  have hxsplit : jsSplit x = [x] := jsSplit_single hxd
  have hpne : (x ++ "." ++ f) ≠ "" := strApp_ne_empty_left f (strApp_ne_empty_left "." hx)
  have hres : getLastSchemaAndPaths st.tree (x ++ "." ++ f) = glpGo st.tree x [f] "" [] := by
    rw [getLastSchemaAndPaths, hsplitp]
    rfl
  have harr : isArrayAt st.tree x = false := by
    rw [isArrayAt, hxsplit, schemaPath_one, hlook]
  have htermrec : glpGo st.tree x [f] "" []
      = { fieldExists := existsAt st.tree (x ++ "." ++ f), schema := st.tree,
          path := x ++ "." ++ f, fullPath := x ++ "." ++ f, pathToLast := "",
          subPaths := [x ++ "." ++ f] } := by
    rw [glpGo, if_neg (by rw [harr]; simp)]
    rfl
  have hexF : existsAt st.tree (x ++ "." ++ f) = false := by
    rw [existsAt, if_neg hpne, hsplitp, treeGetT_cons₂, hlook]
    rfl
  have hplaceholder : treeGetT st.tree [x] = some (Node.sub []) := by
    rw [treeGetT_one]
    exact hlook
  -- the inner removal of the placeholder parent
  have hxres : getLastSchemaAndPaths st.tree x = glpGo st.tree x [] "" [] := by
    rw [getLastSchemaAndPaths, hxsplit]
    rfl
  have hxex : existsAt st.tree x = true := by
    rw [existsAt, if_neg hx, hxsplit, treeGetT_one, hlook]
    rfl
  have hinner : removeSchemaFieldNoCascade st x
      = (Outcome.resolved "Field removed successfully",
         ⟨delField st.tree x, docsUnset st.docs "" x⟩) := by
    rw [removeSchemaFieldNoCascade, removeSchemaFieldCore]
    simp only [hvx, Bool.not_true, Bool.false_eq_true, if_false]
    rw [hxres]
    rw [show glpGo st.tree x [] "" []
        = { fieldExists := existsAt st.tree x, schema := st.tree, path := x,
            fullPath := x, pathToLast := "", subPaths := [x] } from rfl]
    simp only [hxex, Bool.not_true, Bool.false_eq_true, if_false]
    rw [show delThroughHops st.tree [x] = treeDel st.tree (jsSplit x) from rfl, hxsplit,
      treeDel_one]
  -- the re-insertion over the cleared slot
  have h1 : treeSet (delField st.tree x) [x, f] d
      = setField (delField st.tree x) x (Node.sub [(f, d)]) := by
    rw [treeSet_cons₂, hnodup]
    rfl
  have haux : setThroughHops (delField st.tree x) [x ++ "." ++ f] d
      = delField st.tree x ++ [(x, Node.sub [(f, d)])] := by
    rw [setThroughHops_one, hsplitp, h1, setField_absent_append _ _ _ hnodup]
  have hadd : addSchemaField st (x ++ "." ++ f) d
      = (Outcome.resolved "Field added successfully",
         ⟨delField st.tree x ++ [(x, Node.sub [(f, d)])], docsUnset st.docs "" x⟩) := by
    rw [addSchemaField]
    simp only [hv, Bool.not_true, Bool.false_eq_true, if_false]
    rw [hres, htermrec]
    simp only [hexF, Bool.false_eq_true, if_false, hsplitp]
    rw [if_pos (by simp)]
    rw [show (([x, f] : List String).dropLast) = [x] from rfl, hplaceholder]
    rw [if_pos (show isEmptyPlaceholder (some (Node.sub [])) = true from rfl)]
    rw [show ("" : String) ++ String.intercalate "," [x] = x from rfl]
    simp only [hinner, addSchemaAux, updateDefaults, haux]
  -- the final removal of the added field
  have hlook2 : lookupField (delField st.tree x ++ [(x, Node.sub [(f, d)])]) x
      = some (Node.sub [(f, d)]) := by
    rw [lookupField_append_none _ _ hnodup]
    simp [lookupField]
  have harr2 : isArrayAt (delField st.tree x ++ [(x, Node.sub [(f, d)])]) x = false := by
    rw [isArrayAt, hxsplit, schemaPath_one, hlook2]
  have hres2 : getLastSchemaAndPaths (delField st.tree x ++ [(x, Node.sub [(f, d)])])
      (x ++ "." ++ f) = glpGo (delField st.tree x ++ [(x, Node.sub [(f, d)])]) x [f] "" [] := by
    rw [getLastSchemaAndPaths, hsplitp]
    rfl
  have hterm2 : glpGo (delField st.tree x ++ [(x, Node.sub [(f, d)])]) x [f] "" []
      = { fieldExists := existsAt (delField st.tree x ++ [(x, Node.sub [(f, d)])])
            (x ++ "." ++ f),
          schema := delField st.tree x ++ [(x, Node.sub [(f, d)])],
          path := x ++ "." ++ f, fullPath := x ++ "." ++ f, pathToLast := "",
          subPaths := [x ++ "." ++ f] } := by
    rw [glpGo, if_neg (by rw [harr2]; simp)]
    rfl
  have hex2T : existsAt (delField st.tree x ++ [(x, Node.sub [(f, d)])]) (x ++ "." ++ f)
      = true := by
    rw [existsAt, if_neg hpne, hsplitp, treeGetT_cons₂, hlook2]
    rw [show (match some (Node.sub [(f, d)]) with
        | some (Node.sub t') => treeGetT t' [f]
        | _ => none) = treeGetT [(f, d)] [f] from rfl]
    rw [treeGetT_one, lookupField, if_pos rfl]
    rfl
  have h2 : treeDel (delField st.tree x ++ [(x, Node.sub [(f, d)])]) [x, f]
      = setField (delField st.tree x ++ [(x, Node.sub [(f, d)])]) x (Node.sub []) := by
    rw [treeDel_cons₂, hlook2]
    rw [show (match some (Node.sub [(f, d)]) with
        | some (Node.sub t') => setField (delField st.tree x ++ [(x, Node.sub [(f, d)])]) x
            (Node.sub (treeDel t' [f]))
        | _ => delField st.tree x ++ [(x, Node.sub [(f, d)])])
        = setField (delField st.tree x ++ [(x, Node.sub [(f, d)])]) x
            (Node.sub (treeDel [(f, d)] [f])) from rfl]
    rw [treeDel_one, delField, if_pos rfl]
  have hdel2 : delThroughHops (delField st.tree x ++ [(x, Node.sub [(f, d)])])
      [x ++ "." ++ f] = delField st.tree x ++ [(x, Node.sub [])] := by
    rw [delThroughHops_one, hsplitp, h2, setField_append_last _ _ _ _ hnodup]
  have hrem : removeSchemaField
      ⟨delField st.tree x ++ [(x, Node.sub [(f, d)])], docsUnset st.docs "" x⟩
      (x ++ "." ++ f) false
      = (Outcome.resolved "Field removed successfully",
         ⟨delField st.tree x ++ [(x, Node.sub [])],
          docsUnset (docsUnset st.docs "" x) "" (x ++ "." ++ f)⟩) := by
    rw [removeSchemaField, removeSchemaFieldCore]
    simp only [hv, Bool.not_true, Bool.false_eq_true, if_false]
    rw [hres2, hterm2]
    simp only [hex2T, Bool.not_true, Bool.false_eq_true, if_false]
    rw [hdel2]
  refine ⟨by rw [hadd], by rw [hadd, hrem], ?_⟩
  rw [hadd, hrem]
  exact treeEquiv_readd st.tree x (Node.sub []) (Node.sub []) hlook hnodup rfl


theorem jsReplaceFirst_no_dollar {s : String} (h : '$' ∉ s.toList) :
    jsReplaceFirst s ".$[]" = s := by
  rw [jsReplaceFirst, show (".$[]" : String).toList = ['.', '$', '[', ']'] from rfl,
    replaceFirstL_no_dollar h, string_mk_toList]

theorem jsReplaceFirst_junction {a b : String} (h : '$' ∉ a.toList) :
    jsReplaceFirst (a ++ ".$[]." ++ b) ".$[]" = a ++ "." ++ b := by
  rw [jsReplaceFirst, show (".$[]" : String).toList = ['.', '$', '[', ']'] from rfl]
  have hl : (a ++ ".$[]." ++ b).toList
      = a.toList ++ '.' :: '$' :: '[' :: ']' :: '.' :: b.toList := by
    simp
  rw [hl, replaceFirstL_junction a.toList h]
  apply String.ext
  simp

theorem intercalate_append (xs ys : List String) (hx : xs ≠ []) (hy : ys ≠ []) :
    String.intercalate "." (xs ++ ys)
      = String.intercalate "." xs ++ "." ++ String.intercalate "." ys := by
  induction xs with
  | nil => exact absurd rfl hx
  | cons x xs' ih =>
    cases xs' with
    | nil =>
      cases ys with
      | nil => exact absurd rfl hy
      | cons y ys' =>
        rw [List.singleton_append, intercalate_cons_cons]
        rfl
    | cons x2 xs'' =>
      rw [List.cons_append, List.cons_append, intercalate_cons_cons x x2 (xs'' ++ ys),
        ← List.cons_append, ih (by simp), intercalate_cons_cons x x2 xs'']
      apply String.ext
      simp

theorem dollar_notin_append_left {a b : String} (h : '$' ∉ (a ++ "." ++ b).toList) :
    '$' ∉ a.toList := by
  intro hm
  refine h ?_
  simp
  exact Or.inl hm

theorem pathIsValid_no_dollar {p : String} (h : pathIsValid p = true) : '$' ∉ p.toList := by
  intro hm
  rw [pathIsValid] at h
  simp only [Bool.not_eq_true', Bool.or_eq_false_iff] at h
  exact absurd (jsIncludes_dollar_iff.mpr hm) (by rw [h.2]; simp)

theorem levelsWB_append :
    ∀ (A B : List (List String)), levelsWB (A ++ B) = (levelsWB A && levelsWB B) := by
  intro A B
  induction A with
  | nil => simp [levelsWB]
  | cons l A' ih =>
    cases l with
    | nil => rfl
    | cons s ss =>
      rw [List.cons_append, levelsWB_cons, levelsWB_cons, ih, Bool.and_assoc]

theorem planJoins_append (A B : List (List String)) :
    planJoins (A ++ B) = planJoins A ++ planJoins B := by
  simp [planJoins]

theorem planOwner_append_owner :
    ∀ (ls : List (List String)) (t : Tree) (term : List String),
      planOwner t (ls ++ [term]) = ownerThroughHops t (planJoins ls) := by
  intro ls
  induction ls with
  | nil => intro t term; rfl
  | cons l ls' ih =>
    intro t term
    rw [planJoins_cons, ownerThroughHops]
    cases ls' with
    | nil =>
      rw [show (([l] : List (List String)) ++ [term]) = [l, term] from rfl,
        planOwner_cons₂, planOwner_one]
      exact (ih (elemTreeAt t (String.intercalate "." l)) term).symm ▸ rfl
    | cons l2 ls'' =>
      rw [List.cons_append, List.cons_append, planOwner_cons₂, ← List.cons_append]
      exact ih (elemTreeAt t (String.intercalate "." l)) term

theorem remove_cascade_through_hops (st : DBState) (sh : String) (ssh : List String)
    (hrest : List (List String)) (s2 y2 : String) (ys2 : List String)
    (hwb : levelsWB ((sh :: ssh) :: (hrest ++ [s2 :: y2 :: ys2])) = true)
    (hv : pathIsValid (String.intercalate "."
        (((sh :: ssh) :: (hrest ++ [s2 :: y2 :: ys2])).flatten)) = true)
    (hplan : planOk st.tree ((sh :: ssh) :: (hrest ++ [s2 :: y2 :: ys2])) = true)
    (hex : (treeGetT (planOwner st.tree ((sh :: ssh) :: (hrest ++ [s2 :: y2 :: ys2])))
        (s2 :: y2 :: ys2)).isSome = true)
    (hptl : jsReplaceFirst (joinMarks "" (planJoins ((sh :: ssh) :: hrest))) ".$[]"
        = String.intercalate "." (((sh :: ssh) :: hrest).flatten))
    (hvc : pathIsValid (String.intercalate "."
        (((sh :: ssh) :: hrest).flatten ++ (s2 :: y2 :: ys2).dropLast)) = true)
    (hparent : treeGetT
        (ownerThroughHops
          (delThroughHops st.tree (planJoins ((sh :: ssh) :: (hrest ++ [s2 :: y2 :: ys2]))))
          (planJoins ((sh :: ssh) :: hrest)))
        ((s2 :: y2 :: ys2).dropLast) = some (Node.sub []))
    (hplan' : planOk
        (delThroughHops st.tree (planJoins ((sh :: ssh) :: (hrest ++ [s2 :: y2 :: ys2]))))
        ((sh :: ssh) :: (hrest ++ [(s2 :: y2 :: ys2).dropLast])) = true) :
    (removeSchemaField st (String.intercalate "."
        (((sh :: ssh) :: (hrest ++ [s2 :: y2 :: ys2])).flatten)) true).1
      = Outcome.resolved "Field removed successfully"
    ∧ (removeSchemaField st (String.intercalate "."
        (((sh :: ssh) :: (hrest ++ [s2 :: y2 :: ys2])).flatten)) true).2.tree
      = delThroughHops
          (delThroughHops st.tree (planJoins ((sh :: ssh) :: (hrest ++ [s2 :: y2 :: ys2]))))
          (planJoins ((sh :: ssh) :: (hrest ++ [(s2 :: y2 :: ys2).dropLast]))) := by
  obtain ⟨_, hwbr, hsegs₁⟩ := levelsWB_head hwb
  have hnz : ∀ lvl ∈ hrest ++ [s2 :: y2 :: ys2], lvl ≠ [] := by
    intro lvl hm
    obtain ⟨⟨a, b, he⟩, _⟩ := levelsWB_mem _ hwbr lvl hm
    rw [he]
    simp
  have hl2mem : (s2 :: y2 :: ys2) ∈ (sh :: ssh) :: (hrest ++ [s2 :: y2 :: ys2]) := by simp
  have hl2segs := (levelsWB_mem _ hwb _ hl2mem).2
  have hs2 : s2 ≠ "" := (segOkB_spec (hl2segs s2 (by simp))).1
  have hsh : sh ≠ "" := (segOkB_spec (hsegs₁ sh (by simp))).1
  have hflat : (((sh :: ssh) :: (hrest ++ [s2 :: y2 :: ys2])).flatten : List String)
      = sh :: (ssh ++ (hrest ++ [s2 :: y2 :: ys2]).flatten) := by
    rw [List.flatten_cons, List.cons_append]
  rw [hflat] at hv ⊢
  have hdots : ∀ piece ∈ sh :: (ssh ++ (hrest ++ [s2 :: y2 :: ys2]).flatten),
      '.' ∉ piece.toList := by
    intro piece hp
    refine (segOkB_spec (levelsWB_flatten_segOk _ hwb piece ?_)).2
    rw [hflat]
    exact hp
  have hsplit : jsSplit (String.intercalate "."
        (sh :: (ssh ++ (hrest ++ [s2 :: y2 :: ys2]).flatten)))
      = sh :: (ssh ++ (hrest ++ [s2 :: y2 :: ys2]).flatten) :=
    jsSplit_intercalate _ sh hdots
  have hres : getLastSchemaAndPaths st.tree (String.intercalate "."
        (sh :: (ssh ++ (hrest ++ [s2 :: y2 :: ys2]).flatten)))
      = glpGo st.tree sh (ssh ++ (hrest ++ [s2 :: y2 :: ys2]).flatten) "" [] := by
    rw [getLastSchemaAndPaths, hsplit]
    rfl
  have hglp := glpGo_plan (hrest ++ [s2 :: y2 :: ys2]) ssh st.tree sh "" [] hplan hnz
  rw [List.getLastD_concat] at hglp
  have hJ2ne : String.intercalate "." (s2 :: y2 :: ys2) ≠ "" :=
    intercalate_ne_empty "." s2 (y2 :: ys2) hs2
  have hLsplit : jsSplit (String.intercalate "." (s2 :: y2 :: ys2)) = s2 :: y2 :: ys2 :=
    jsSplit_join (fun seg hm => hl2segs seg hm)
  have hexT : existsAt (planOwner st.tree ((sh :: ssh) :: (hrest ++ [s2 :: y2 :: ys2])))
      (String.intercalate "." (s2 :: y2 :: ys2)) = true := by
    rw [existsAt, if_neg hJ2ne, hLsplit]
    exact hex
  have hcore : removeSchemaFieldCore st (String.intercalate "."
        (sh :: (ssh ++ (hrest ++ [s2 :: y2 :: ys2]).flatten)))
      = Sum.inr (glpGo st.tree sh (ssh ++ (hrest ++ [s2 :: y2 :: ys2]).flatten) "" [],
          ⟨delThroughHops st.tree (planJoins ((sh :: ssh) :: (hrest ++ [s2 :: y2 :: ys2]))),
           docsUnset st.docs
             (jsReplaceFirst (joinMarks ""
               (planJoins ((sh :: ssh) :: (hrest ++ [s2 :: y2 :: ys2]))).dropLast) ".$[]")
             (joinMarks "" (planJoins ((sh :: ssh) :: (hrest ++ [s2 :: y2 :: ys2]))))⟩) := by
    rw [removeSchemaFieldCore]
    simp only [hv, Bool.not_true, Bool.false_eq_true, if_false]
    rw [hres, hglp]
    simp only [hexT, Bool.not_true, Bool.false_eq_true, if_false, List.nil_append]
  -- the parent segments
  have hPS : (s2 :: y2 :: ys2).dropLast = s2 :: (y2 :: ys2).dropLast := by
    rw [List.dropLast_cons₂]
  have hPSne : (s2 :: y2 :: ys2).dropLast ≠ [] := by rw [hPS]; simp
  have hPSsegs : ∀ seg ∈ (s2 :: y2 :: ys2).dropLast, segOkB seg = true :=
    fun seg hm => hl2segs seg ((List.dropLast_prefix _).subset hm)
  have hPJ : String.intercalate "." ((s2 :: y2 :: ys2).dropLast) ≠ "" := by
    rw [hPS]
    exact intercalate_ne_empty "." s2 _ hs2
  have hPSsegs' : ∀ seg ∈ s2 :: (y2 :: ys2).dropLast, segOkB seg = true := by
    rw [← hPS]
    exact hPSsegs
  have hPSsplit : jsSplit (String.intercalate "." ((s2 :: y2 :: ys2).dropLast))
      = (s2 :: y2 :: ys2).dropLast := by
    rw [hPS]
    exact jsSplit_join hPSsegs'
  -- the hop prefix
  have hhopflat : (((sh :: ssh) :: hrest).flatten : List String)
      = sh :: (ssh ++ hrest.flatten) := by
    rw [List.flatten_cons, List.cons_append]
  have hhopne : String.intercalate "." (((sh :: ssh) :: hrest).flatten) ≠ "" := by
    rw [hhopflat]
    exact intercalate_ne_empty "." sh _ hsh
  have hcasceq : String.intercalate "." (((sh :: ssh) :: hrest).flatten) ++ "."
        ++ String.intercalate "." ((s2 :: y2 :: ys2).dropLast)
      = String.intercalate "."
          (((sh :: ssh) :: hrest).flatten ++ (s2 :: y2 :: ys2).dropLast) :=
    (intercalate_append _ _ (by rw [hhopflat]; simp) hPSne).symm
  have hdropJ : (planJoins ((sh :: ssh) :: (hrest ++ [s2 :: y2 :: ys2]))).dropLast
      = planJoins ((sh :: ssh) :: hrest) := by
    rw [show ((sh :: ssh) :: (hrest ++ [s2 :: y2 :: ys2]) : List (List String))
        = ((sh :: ssh) :: hrest) ++ [s2 :: y2 :: ys2] from by simp, planJoins_append]
    rw [show planJoins [s2 :: y2 :: ys2]
        = [String.intercalate "." (s2 :: y2 :: ys2)] from rfl]
    exact List.dropLast_concat
  -- the inner removal of the emptied parent, for any document store
  have hnz2 : ∀ lvl ∈ hrest ++ [(s2 :: y2 :: ys2).dropLast], lvl ≠ [] := by
    intro lvl hm
    rcases List.mem_append.mp hm with h | h
    · exact hnz lvl (List.mem_append.mpr (Or.inl h))
    · simp at h
      rw [h]
      exact hPSne
  have hflat2 : ((hrest ++ [(s2 :: y2 :: ys2).dropLast]).flatten : List String)
      = hrest.flatten ++ (s2 :: y2 :: ys2).dropLast := by simp
  have hdots2 : ∀ piece ∈ sh :: (ssh ++ (hrest.flatten ++ (s2 :: y2 :: ys2).dropLast)),
      '.' ∉ piece.toList := by
    intro piece hp
    rcases List.mem_cons.mp hp with he | hm
    · rw [he]
      exact (segOkB_spec (hsegs₁ sh (by simp))).2
    · rcases List.mem_append.mp hm with h | h
      · exact (segOkB_spec (hsegs₁ piece (by simp [h]))).2
      · rcases List.mem_append.mp h with h2 | h2
        · refine (segOkB_spec (levelsWB_flatten_segOk _ hwbr piece ?_)).2
          rw [List.flatten_append]
          exact List.mem_append.mpr (Or.inl h2)
        · exact (segOkB_spec (hPSsegs piece h2)).2
  have hsplit2 : jsSplit (String.intercalate "."
        (((sh :: ssh) :: hrest).flatten ++ (s2 :: y2 :: ys2).dropLast))
      = sh :: (ssh ++ (hrest.flatten ++ (s2 :: y2 :: ys2).dropLast)) := by
    rw [hhopflat, List.cons_append, List.append_assoc]
    exact jsSplit_intercalate _ sh hdots2
  have hres2 : getLastSchemaAndPaths
        (delThroughHops st.tree (planJoins ((sh :: ssh) :: (hrest ++ [s2 :: y2 :: ys2]))))
        (String.intercalate "."
          (((sh :: ssh) :: hrest).flatten ++ (s2 :: y2 :: ys2).dropLast))
      = glpGo (delThroughHops st.tree (planJoins ((sh :: ssh) :: (hrest ++ [s2 :: y2 :: ys2]))))
          sh (ssh ++ (hrest.flatten ++ (s2 :: y2 :: ys2).dropLast)) "" [] := by
    rw [getLastSchemaAndPaths, hsplit2]
    rfl
  have hglp2 := glpGo_plan (hrest ++ [(s2 :: y2 :: ys2).dropLast]) ssh
    (delThroughHops st.tree (planJoins ((sh :: ssh) :: (hrest ++ [s2 :: y2 :: ys2])))) sh "" []
    hplan' hnz2
  rw [List.getLastD_concat, hflat2] at hglp2
  have hex2 : existsAt
      (planOwner (delThroughHops st.tree (planJoins ((sh :: ssh) :: (hrest ++ [s2 :: y2 :: ys2]))))
        ((sh :: ssh) :: (hrest ++ [(s2 :: y2 :: ys2).dropLast])))
      (String.intercalate "." ((s2 :: y2 :: ys2).dropLast)) = true := by
    rw [existsAt, if_neg hPJ, hPSsplit]
    rw [show ((sh :: ssh) :: (hrest ++ [(s2 :: y2 :: ys2).dropLast]) : List (List String))
        = ((sh :: ssh) :: hrest) ++ [(s2 :: y2 :: ys2).dropLast] from by simp]
    rw [planOwner_append_owner, hparent]
    rfl
  have hinner : ∀ docs0 : List Val,
      removeSchemaFieldNoCascade
        ⟨delThroughHops st.tree (planJoins ((sh :: ssh) :: (hrest ++ [s2 :: y2 :: ys2]))),
         docs0⟩
        (String.intercalate "."
          (((sh :: ssh) :: hrest).flatten ++ (s2 :: y2 :: ys2).dropLast))
      = (Outcome.resolved "Field removed successfully",
         ⟨delThroughHops
            (delThroughHops st.tree (planJoins ((sh :: ssh) :: (hrest ++ [s2 :: y2 :: ys2]))))
            (planJoins ((sh :: ssh) :: (hrest ++ [(s2 :: y2 :: ys2).dropLast]))),
          docsUnset docs0
            (jsReplaceFirst (joinMarks ""
              (planJoins ((sh :: ssh) :: (hrest ++ [(s2 :: y2 :: ys2).dropLast]))).dropLast)
              ".$[]")
            (joinMarks ""
              (planJoins ((sh :: ssh) :: (hrest ++ [(s2 :: y2 :: ys2).dropLast]))))⟩) := by
    intro docs0
    rw [removeSchemaFieldNoCascade, removeSchemaFieldCore]
    simp only [hvc, Bool.not_true, Bool.false_eq_true, if_false]
    rw [hres2, hglp2]
    simp only [hex2, Bool.not_true, Bool.false_eq_true, if_false, List.nil_append]
  -- assemble the outer call
  rw [removeSchemaField, hcore]
  simp only
  rw [hglp]
  simp only [hLsplit, List.nil_append]
  simp only [if_true]
  rw [if_pos (by simp)]
  rw [hdropJ, hparent, hptl, if_neg hhopne, hcasceq, hinner]
  exact ⟨rfl, rfl⟩

theorem remove_cascade_shallow_hops (st : DBState) (hopLvls : List (List String))
    (s2 y2 : String) (ys2 : List String)
    (hne : hopLvls ≠ []) (hlen : hopLvls.length ≤ 2)
    (hwb : levelsWB (hopLvls ++ [s2 :: y2 :: ys2]) = true)
    (hv : pathIsValid (String.intercalate "." (hopLvls ++ [s2 :: y2 :: ys2]).flatten) = true)
    (hplan : planOk st.tree (hopLvls ++ [s2 :: y2 :: ys2]) = true)
    (hex : (treeGetT (planOwner st.tree (hopLvls ++ [s2 :: y2 :: ys2]))
        (s2 :: y2 :: ys2)).isSome = true)
    (hvc : pathIsValid (String.intercalate "."
        (hopLvls.flatten ++ (s2 :: y2 :: ys2).dropLast)) = true)
    (hparent : treeGetT
        (ownerThroughHops (delThroughHops st.tree (planJoins (hopLvls ++ [s2 :: y2 :: ys2])))
          (planJoins hopLvls))
        ((s2 :: y2 :: ys2).dropLast) = some (Node.sub []))
    (hplan' : planOk (delThroughHops st.tree (planJoins (hopLvls ++ [s2 :: y2 :: ys2])))
        (hopLvls ++ [(s2 :: y2 :: ys2).dropLast]) = true) :
    (removeSchemaField st
        (String.intercalate "." (hopLvls ++ [s2 :: y2 :: ys2]).flatten) true).1
      = Outcome.resolved "Field removed successfully"
    ∧ (removeSchemaField st
        (String.intercalate "." (hopLvls ++ [s2 :: y2 :: ys2]).flatten) true).2.tree
      = delThroughHops (delThroughHops st.tree (planJoins (hopLvls ++ [s2 :: y2 :: ys2])))
          (planJoins (hopLvls ++ [(s2 :: y2 :: ys2).dropLast])) := by
  cases hopLvls with
  | nil => exact absurd rfl hne
  | cons l1 t1 =>
    obtain ⟨⟨sh, ssh, rfl⟩, hwbt, hsegs₁⟩ := levelsWB_head (by
      rw [← List.cons_append]; exact hwb)
    have hsh : sh ≠ "" := (segOkB_spec (hsegs₁ sh (by simp))).1
    cases t1 with
    | nil =>
      have hPeq : String.intercalate "." ((([sh :: ssh] ++ [s2 :: y2 :: ys2]).flatten))
          = String.intercalate "." (sh :: ssh) ++ "."
            ++ String.intercalate "." (s2 :: y2 :: ys2) := by
        rw [show ((([sh :: ssh] ++ [s2 :: y2 :: ys2]).flatten) : List String)
            = (sh :: ssh) ++ (s2 :: y2 :: ys2) from by simp]
        exact intercalate_append _ _ (by simp) (by simp)
      have hdol : '$' ∉ (String.intercalate "." (sh :: ssh)).toList :=
        dollar_notin_append_left (by rw [← hPeq]; exact pathIsValid_no_dollar hv)
      have hptl : jsReplaceFirst (joinMarks "" (planJoins ((sh :: ssh) :: []))) ".$[]"
          = String.intercalate "." (((sh :: ssh) :: []).flatten) := by
        rw [show planJoins [sh :: ssh] = [String.intercalate "." (sh :: ssh)] from rfl,
          joinMarks_cons, if_pos rfl,
          show (([sh :: ssh] : List (List String)).flatten) = sh :: ssh from by simp]
        exact jsReplaceFirst_no_dollar hdol
      exact remove_cascade_through_hops st sh ssh [] s2 y2 ys2 hwb hv hplan hex hptl
        hvc hparent hplan'
    | cons l2 t2 =>
      obtain ⟨⟨sB, ssB, rfl⟩, _, hsegsB⟩ := levelsWB_head hwbt
      cases t2 with
      | nil =>
        have hJ1ne : String.intercalate "." (sh :: ssh) ≠ "" :=
          intercalate_ne_empty "." sh ssh hsh
        have hPeq : String.intercalate "." (([sh :: ssh, sB :: ssB]
              ++ [s2 :: y2 :: ys2]).flatten)
            = String.intercalate "." (sh :: ssh) ++ "."
              ++ String.intercalate "." ((sB :: ssB) ++ (s2 :: y2 :: ys2)) := by
          rw [show ((([sh :: ssh, sB :: ssB] ++ [s2 :: y2 :: ys2]).flatten) : List String)
              = (sh :: ssh) ++ ((sB :: ssB) ++ (s2 :: y2 :: ys2)) from by simp]
          exact intercalate_append _ _ (by simp) (by simp)
        have hdol : '$' ∉ (String.intercalate "." (sh :: ssh)).toList :=
          dollar_notin_append_left (by rw [← hPeq]; exact pathIsValid_no_dollar hv)
        have hptl : jsReplaceFirst
            (joinMarks "" (planJoins ((sh :: ssh) :: [sB :: ssB]))) ".$[]"
            = String.intercalate "." (((sh :: ssh) :: [sB :: ssB]).flatten) := by
          rw [show planJoins [sh :: ssh, sB :: ssB]
              = [String.intercalate "." (sh :: ssh),
                 String.intercalate "." (sB :: ssB)] from rfl,
            joinMarks_cons, if_pos rfl, joinMarks_cons, if_neg hJ1ne]
          rw [show ((([sh :: ssh, sB :: ssB] : List (List String)).flatten))
              = (sh :: ssh) ++ (sB :: ssB) from by simp]
          rw [intercalate_append _ _ (by simp) (by simp)]
          exact jsReplaceFirst_junction hdol
        exact remove_cascade_through_hops st sh ssh [sB :: ssB] s2 y2 ys2 hwb hv hplan hex
          hptl hvc hparent hplan'
      | cons l3 t3 =>
        simp at hlen

/-- C1: the claim says the sibling move `moveSchemaField(model, "a.b",
"a.e")` resolves with "Field moved successfully" and the cross-level move
`("a.b", "c")` rejects with the cross-level error.  On the code neither
happens: once the origin passes validation, line 487 evaluates
`pathIsValid(path)` with no `path` in scope, so both calls reject with the
thrown `ReferenceError` before resolution, leaving the state untouched. -/
theorem moveSchemaField_rejects_with_referenceError :
    moveSchemaField exArrState "a.b" "a.e" false
      = (Outcome.errored "path is not defined", exArrState)
    ∧ moveSchemaField exArrState "a.b" "c" false
      = (Outcome.errored "path is not defined", exArrState) :=
  ⟨rfl, rfl⟩

/-- C2: the claim says `changeFieldType` settles only after its migration
branch completes, rejecting when the bulk update fails.  On the code the
unconditional `resolve` of line 644 settles the promise immediately after
dispatching the branch: in the trace for an existing field with `keepValues
= false` and a failing bulk `$set`, the first settlement is the resolution
"Field type changed" and it precedes the completion of the bulk update, so
the later failure cannot reject the promise; the `keepValues = true` branch
settles before the defaults pass completes in the same way. -/
theorem changeFieldType_settles_before_migration :
    changeFieldTypeEvents exRetypeState "age" false false
      = [TEv.schemaMutated, TEv.resolvedSettle "Field type changed",
         TEv.bulkSetCompleted false, TEv.rejectedSettle "bulk update failed"]
    ∧ firstSettle (changeFieldTypeEvents exRetypeState "age" false false)
      = some (TEv.resolvedSettle "Field type changed")
    ∧ firstSettleIdx (changeFieldTypeEvents exRetypeState "age" false false)
      < migrationDoneIdx (changeFieldTypeEvents exRetypeState "age" false false)
    ∧ firstSettle (changeFieldTypeEvents exRetypeState "age" true true)
      = some (TEv.resolvedSettle "Field type changed")
    ∧ firstSettleIdx (changeFieldTypeEvents exRetypeState "age" true true)
      < migrationDoneIdx (changeFieldTypeEvents exRetypeState "age" true true) :=
  ⟨rfl, rfl, by decide, rfl, by decide⟩

/-- C3 counterexample: on `{ x: { y: { z: String } } }`, removing `"x.y.z"`
with the cascade flag removes `z` and the emptied `y`, but the recursion of
line 452 is invoked without the flag, so the now-empty `x` — an empty
ancestor subdocument that is not the root — survives, contradicting the
claim that emptiness-driven deletion continues until a non-empty ancestor or
the root. -/
theorem removeSchemaField_cascade_leaves_empty_grandparent :
    (removeSchemaField exNestedState "x.y.z" true).1
      = Outcome.resolved "Field removed successfully"
    ∧ (removeSchemaField exNestedState "x.y.z" true).2.tree = [("x", Node.sub [])]
    ∧ [("x", Node.sub [])] ≠ ([] : Tree) :=
  ⟨rfl, rfl, by simp⟩

/-- C4: the claim says a successful move — including over an empty
collection — ends with the origin removed from the schema tree.  With the
line-487 typo read as intended, the zero-document branch of lines 517-522
resolves "Field moved successfully" without ever invoking
`removeSchemaField(origin)`: the origin field `b` is still in the schema
beside the new `e`.  (The code as actually written never resolves at all,
rejecting with the line-487 `ReferenceError`.) -/
theorem moveSchemaField_zero_documents_keeps_origin :
    (moveSchemaFieldFixed exArrState "a.b" "a.e" false).1
      = Outcome.resolved "Field moved successfully"
    ∧ (moveSchemaFieldFixed exArrState "a.b" "a.e" false).2.tree
      = [("a", Node.arr [("b", Node.prim exAttrs), ("e", Node.prim exAttrs)])] :=
  ⟨rfl, rfl⟩

/-- C5 counterexample: on a schema with three array levels, resolving
`"a.b.c.d"` yields `pathToLast = "a.b.$[].c"`: JS `String.prototype.replace`
with a string pattern removes only the first `".$[]"` occurrence, so the
container path retains a positional marker, contradicting the claim that it
is marker-free for any number of crossed array boundaries. -/
theorem pathToLast_retains_marker_at_three_levels :
    (getLastSchemaAndPaths exDeepTree "a.b.c.d").pathToLast = "a.b.$[].c"
    ∧ jsIncludes (getLastSchemaAndPaths exDeepTree "a.b.c.d").pathToLast ".$[]" = true :=
  ⟨rfl, rfl⟩

/-- C6 counterexample: on an empty schema tree, `Add("x.y", d)` materialises
the missing parent `x` and succeeds, and the immediate `Remove("x.y")`
deletes only `y`, leaving `{ x: {} }` — not the original empty tree — so the
round trip does not restore the tree when the path's parent did not already
exist. -/
theorem add_remove_leaves_materialised_parent :
    (addSchemaField exEmptyState "x.y" (Node.prim exAttrs)).1
      = Outcome.resolved "Field added successfully"
    ∧ (removeSchemaField (addSchemaField exEmptyState "x.y" (Node.prim exAttrs)).2
        "x.y" false).2.tree = [("x", Node.sub [])]
    ∧ [("x", Node.sub [])] ≠ exEmptyState.tree :=
  ⟨rfl, rfl, by simp [exEmptyState]⟩

/-- C6 amended: `Add(p,d)` followed immediately by `Remove(p)` restores the
schema tree exactly in the shapes the counterexample leaves intact.  First
conjunct: for every path whose segments resolve along a plan of array levels
(any nesting depth, including none), with the terminal local chain running
through existing plain subdocuments to an absent final field, and whose
multi-segment local parent is not an empty placeholder or a primitive, the
add resolves, the remove resolves, and the final schema tree equals the
original (the plan conditions on the post-add tree encode that the freshly
inserted field resolves along the same hops again, which the insertion
itself provides).  Second conjunct: in the top-level empty-placeholder case
`{ x: {} }`, adding `x.f` first removes the placeholder and re-inserts `x`,
so the round trip restores the tree as a field-name-to-node map
(`treeEquiv`), the re-appended `x` having moved to the end of the level. -/
theorem add_remove_round_trip_on_supported_shapes :
    (∀ (st : DBState) (levels : List (List String)) (d : Node),
      levelsWB levels = true → levels ≠ [] →
      pathIsValid (String.intercalate "." levels.flatten) = true →
      planOk st.tree levels = true →
      chainOk (planOwner st.tree levels) (levels.getLastD ([] : List String)) = true →
      (1 < (levels.getLastD ([] : List String)).length →
        isEmptyPlaceholder (treeGetT (planOwner st.tree levels)
          (levels.getLastD ([] : List String)).dropLast) = false) →
      planOk (setThroughHops st.tree (planJoins levels) d) levels = true →
      (treeGetT (planOwner (setThroughHops st.tree (planJoins levels) d) levels)
          (levels.getLastD ([] : List String))).isSome = true →
      (addSchemaField st (String.intercalate "." levels.flatten) d).1
          = Outcome.resolved "Field added successfully"
        ∧ (removeSchemaField (addSchemaField st (String.intercalate "." levels.flatten) d).2
            (String.intercalate "." levels.flatten) false).1
          = Outcome.resolved "Field removed successfully"
        ∧ (removeSchemaField (addSchemaField st (String.intercalate "." levels.flatten) d).2
            (String.intercalate "." levels.flatten) false).2.tree = st.tree)
    ∧ (∀ (st : DBState) (x f : String) (d : Node),
      x ≠ "" → '.' ∉ x.toList → '.' ∉ f.toList →
      pathIsValid (x ++ "." ++ f) = true → pathIsValid x = true →
      lookupField st.tree x = some (Node.sub []) →
      lookupField (delField st.tree x) x = none →
      (addSchemaField st (x ++ "." ++ f) d).1 = Outcome.resolved "Field added successfully"
        ∧ (removeSchemaField (addSchemaField st (x ++ "." ++ f) d).2 (x ++ "." ++ f) false).1
          = Outcome.resolved "Field removed successfully"
        ∧ treeEquiv ((removeSchemaField (addSchemaField st (x ++ "." ++ f) d).2
              (x ++ "." ++ f) false).2.tree) st.tree) :=
  ⟨planned_add_remove_round_trip, placeholder_add_remove_round_trip⟩

/-- Witness for C6 amended: the first conjunct applied to
`{ a: [{ b: String }] }` with the one-hop plan `[["a"], ["e"]]` (path
`"a.e"`), and the second to `{ x: {} }` with path `"x.y"`. -/
theorem add_remove_round_trip_on_supported_shapes_witness :
    ((removeSchemaField
        (addSchemaField exArrState
          (String.intercalate "." ([["a"], ["e"]] : List (List String)).flatten)
          (Node.prim exAttrs)).2
        (String.intercalate "." ([["a"], ["e"]] : List (List String)).flatten) false).2.tree
      = exArrState.tree)
    ∧ treeEquiv ((removeSchemaField
        (addSchemaField exPlaceholderState ("x" ++ "." ++ "y") (Node.prim exAttrs)).2
        ("x" ++ "." ++ "y") false).2.tree) exPlaceholderState.tree :=
  ⟨(add_remove_round_trip_on_supported_shapes.1 exArrState [["a"], ["e"]]
      (Node.prim exAttrs) (by decide) (by decide) (by decide) rfl rfl
      (by decide) rfl rfl).2.2,
   (add_remove_round_trip_on_supported_shapes.2 exPlaceholderState "x" "y"
      (Node.prim exAttrs) (by decide) (by decide) (by decide) (by decide) (by decide)
      rfl rfl).2.2⟩

/-- C5 amended: for every schema tree and every path accepted by the
validator, the resolution record's `fullPath` is the hop list joined with
the positional marker, and `pathToLast` equals the query path truncated at
the last array boundary with only the FIRST `".$[]"` occurrence removed
(JS `String.prototype.replace` with a string pattern); consequently the
container path is marker-free whenever at most two array boundaries are
crossed (hop list length at most three), while with more boundaries it can
retain markers (see the counterexample). -/
theorem pathToLast_first_marker_only (t : Tree) (p : String) (hv : pathIsValid p = true) :
    (getLastSchemaAndPaths t p).fullPath
      = String.intercalate ".$[]." (getLastSchemaAndPaths t p).subPaths
    ∧ (getLastSchemaAndPaths t p).pathToLast
      = jsReplaceFirst
          (String.intercalate ".$[]." (getLastSchemaAndPaths t p).subPaths.dropLast) ".$[]"
    ∧ ((getLastSchemaAndPaths t p).subPaths.length ≤ 3 →
        jsIncludes (getLastSchemaAndPaths t p).pathToLast ".$[]" = false) := by
  by_cases hp : p = ""
  · subst hp
    exact ⟨rfl, rfl, fun _ => rfl⟩
  · rcases hl : p.toList with _ | ⟨c, restL⟩
    · exact absurd (String.ext hl) hp
    rw [pathIsValid, Bool.not_eq_true'] at hv
    simp only [Bool.or_eq_false_iff] at hv
    rcases hv with ⟨⟨⟨hA, _hB⟩, _hC⟩, hD⟩
    have hc : c ≠ '.' := by
      intro he
      rw [jsCharAt, hl, he] at hA
      simp at hA
    have hdollar : '$' ∉ p.toList := by
      intro hm
      have := jsIncludes_dollar_iff.mpr hm
      rw [this] at hD
      exact absurd hD (by simp)
    rcases splitDotsL_head_cons restL hc with ⟨s0, ss, hsp⟩
    have hmem0 : (c :: s0) ∈ splitDotsL p.toList := by rw [hl, hsp]; simp
    have hcpchars : '$' ∉ (String.mk (c :: s0)).toList := by
      intro hm
      exact hdollar (splitDotsL_chars _ hmem0 '$' hm)
    have hsegchars : ∀ s ∈ ss.map (fun l => String.mk l), '$' ∉ s.toList := by
      intro s hs hm
      rcases List.mem_map.mp hs with ⟨piece, hpiece, rfl⟩
      have hpm : piece ∈ splitDotsL p.toList := by
        rw [hl, hsp]
        exact List.mem_cons_of_mem _ hpiece
      exact hdollar (splitDotsL_chars _ hpm '$' hm)
    have hres : getLastSchemaAndPaths t p
        = glpGo t (String.mk (c :: s0)) (ss.map fun l => String.mk l) "" [] := by
      rw [getLastSchemaAndPaths, jsSplit, hl, hsp]
      rfl
    rcases glpGo_paths_invariant (ss.map fun l => String.mk l) t (String.mk (c :: s0)) "" []
      rfl (fun h => absurd rfl h)
      (fun _ => by intro hcon; have := congrArg String.data hcon; simp at this)
      hcpchars hsegchars with ⟨tail, h1, _h2, h3, h4, h5⟩
    rw [hres]
    refine ⟨h4, h5, ?_⟩
    intro hlen
    rw [h5]
    rw [h1, List.nil_append] at hlen ⊢
    have hdlchars : ∀ x ∈ tail.dropLast, '$' ∉ x.toList :=
      fun x hx => h3 x (List.dropLast_prefix tail |>.subset hx)
    have hdllen : tail.dropLast.length ≤ 2 := by
      rw [List.length_dropLast]
      omega
    rcases hdl : tail.dropLast with _ | ⟨x, _ | ⟨y, _ | ⟨z, more⟩⟩⟩
    · rfl
    · have hx : '$' ∉ x.toList := hdlchars x (by rw [hdl]; simp)
      rw [show String.intercalate ".$[]." [x] = x from rfl]
      rw [show jsReplaceFirst x ".$[]" = String.mk (replaceFirstL x.toList ['.', '$', '[', ']']) from rfl]
      rw [replaceFirstL_no_dollar hx]
      exact jsIncludes_marker_false hx
    · have hx : '$' ∉ x.toList := hdlchars x (by rw [hdl]; simp)
      have hy : '$' ∉ y.toList := hdlchars y (by rw [hdl]; simp)
      rw [show String.intercalate ".$[]." [x, y] = x ++ ".$[]." ++ y from rfl]
      have hdata : (x ++ ".$[]." ++ y).toList
          = x.toList ++ '.' :: '$' :: '[' :: ']' :: '.' :: y.toList := by
        simp
      rw [show jsReplaceFirst (x ++ ".$[]." ++ y) ".$[]"
            = String.mk (replaceFirstL (x ++ ".$[]." ++ y).toList ['.', '$', '[', ']']) from rfl]
      rw [hdata, replaceFirstL_junction x.toList hx]
      apply jsIncludes_marker_false
      intro hm
      rw [show (String.mk (x.toList ++ '.' :: y.toList)).toList
            = x.toList ++ '.' :: y.toList from rfl] at hm
      rcases List.mem_append.mp hm with h | h
      · exact hx h
      · rcases List.mem_cons.mp h with h' | h'
        · exact absurd h' (by decide)
        · exact hy h'
    · rw [hdl] at hdllen
      simp at hdllen

/-- Witness for C5 amended: the theorem applied at the concrete schema
`{ a: [{ b: String }] }` and path `"a.b"`, whose two-entry hop list keeps
the container path marker-free. -/
theorem pathToLast_first_marker_only_witness :
    pathIsValid "a.b" = true
    ∧ jsIncludes (getLastSchemaAndPaths exArrState.tree "a.b").pathToLast ".$[]" = false :=
  ⟨by decide,
   (pathToLast_first_marker_only exArrState.tree "a.b" (by decide)).2.2 (by decide)⟩

/-- C8: in any schema tree where field `a` is an array of subdocuments whose
element tree contains field `b`, resolving the logical path `"a.b"` yields
exactly one array-hop boundary at `a` — the hop list is `["a", "b"]` — a
container path of `"a"`, a query path `"a.$[].b"` (one positional marker),
and a terminal local path `"b"` that exists. -/
theorem resolve_single_array_hop (t T : Tree) (n : Node)
    (ha : lookupField t "a" = some (Node.arr T))
    (hb : lookupField T "b" = some n) :
    (getLastSchemaAndPaths t "a.b").subPaths = ["a", "b"]
    ∧ (getLastSchemaAndPaths t "a.b").pathToLast = "a"
    ∧ (getLastSchemaAndPaths t "a.b").fullPath = "a.$[].b"
    ∧ (getLastSchemaAndPaths t "a.b").path = "b"
    ∧ (getLastSchemaAndPaths t "a.b").fieldExists = true := by
  have harr : isArrayAt t "a" = true := by
    simp [isArrayAt, schemaPath, show jsSplit "a" = ["a"] from rfl, ha]
  have helem : elemTreeAt t "a" = T := by
    simp [elemTreeAt, schemaPath, show jsSplit "a" = ["a"] from rfl, ha]
  have hex : existsAt T "b" = true := by
    simp [existsAt, show jsSplit "b" = ["b"] from rfl, treeGetT, hb]
  have hres : getLastSchemaAndPaths t "a.b" = glpGo t "a" ["b"] "" [] := rfl
  rw [hres]
  simp [glpGo, harr, helem, hex]
  decide

/-- Witness for C8: the hypotheses hold at the concrete schema
`{ a: [{ b: String }] }`. -/
theorem resolve_single_array_hop_witness :
    (getLastSchemaAndPaths exArrState.tree "a.b").subPaths = ["a", "b"]
    ∧ (getLastSchemaAndPaths exArrState.tree "a.b").pathToLast = "a" :=
  ⟨(resolve_single_array_hop exArrState.tree [("b", Node.prim exAttrs)]
      (Node.prim exAttrs) rfl rfl).1,
   (resolve_single_array_hop exArrState.tree [("b", Node.prim exAttrs)]
      (Node.prim exAttrs) rfl rfl).2.1⟩

/-- C9: for every public operation, an invocation that fails path validation
or its existence precondition (field already exists for add, destination
exists or origin missing for move, field missing for remove, redefine and
retype) never resolves — it rejects, whether with the explicit rejection or,
for move, with the error thrown at line 487 — and both the schema tree and
the stored documents are returned exactly as they were.  (For redefine and
retype the source omits an early return after the reject, but the code that
keeps running either rejects again before mutating or throws on the
`undefined` retrieved definition before the schema swap, so no mutation is
observable.) -/
theorem failed_precondition_rejects_and_preserves_state :
    (∀ (st : DBState) (p : String) (d : Node),
      (pathIsValid p = false ∨ (getLastSchemaAndPaths st.tree p).fieldExists = true) →
      (addSchemaField st p d).2 = st ∧ ∀ m, (addSchemaField st p d).1 ≠ Outcome.resolved m)
    ∧ (∀ (st : DBState) (p : String) (c : Bool),
      (pathIsValid p = false ∨ (getLastSchemaAndPaths st.tree p).fieldExists = false) →
      (removeSchemaField st p c).2 = st ∧ ∀ m, (removeSchemaField st p c).1 ≠ Outcome.resolved m)
    ∧ (∀ (st : DBState) (o d : String) (c : Bool),
      (pathIsValid o = false ∨ pathIsValid d = false
        ∨ (getLastSchemaAndPaths st.tree o).fieldExists = false
        ∨ (getLastSchemaAndPaths st.tree d).fieldExists = true) →
      (moveSchemaField st o d c).2 = st ∧ ∀ m, (moveSchemaField st o d c).1 ≠ Outcome.resolved m)
    ∧ (∀ (st : DBState) (p : String) (nd : Node),
      (pathIsValid p = false ∨ (getLastSchemaAndPaths st.tree p).fieldExists = false) →
      (changeFieldDefinition st p nd).2 = st
        ∧ ∀ m, (changeFieldDefinition st p nd).1 ≠ Outcome.resolved m)
    ∧ (∀ (st : DBState) (p ty : String) (dv : Option Val) (rq kv : Bool),
      (pathIsValid p = false ∨ (getLastSchemaAndPaths st.tree p).fieldExists = false) →
      (changeFieldType st p ty dv rq kv).2 = st
        ∧ ∀ m, (changeFieldType st p ty dv rq kv).1 ≠ Outcome.resolved m) := by
  refine ⟨?_, ?_, ?_, ?_, ?_⟩
  · intro st p d h
    by_cases hv : pathIsValid p
    · rcases h with h | hex
      · simp [hv] at h
      · constructor <;> simp [addSchemaField, hv, hex]
    · simp only [Bool.not_eq_true] at hv
      constructor <;> simp [addSchemaField, hv]
  · intro st p c h
    by_cases hv : pathIsValid p
    · rcases h with h | hex
      · simp [hv] at h
      · constructor <;> simp [removeSchemaField, removeSchemaFieldCore, hv, hex]
    · simp only [Bool.not_eq_true] at hv
      constructor <;> simp [removeSchemaField, removeSchemaFieldCore, hv]
  · intro st o d c _h
    by_cases hv : pathIsValid o
    · constructor <;> simp [moveSchemaField, hv]
    · simp only [Bool.not_eq_true] at hv
      constructor <;> simp [moveSchemaField, hv]
  · intro st p nd h
    by_cases hv : pathIsValid p
    · rcases h with h | hex
      · simp [hv] at h
      · constructor <;>
          simp [changeFieldDefinition, removeSchemaField, removeSchemaFieldCore, hv, hex]
    · simp only [Bool.not_eq_true] at hv
      constructor <;> simp [changeFieldDefinition, hv]
  · intro st p ty dv rq kv h
    by_cases hv : pathIsValid p
    · rcases h with h | hex
      · simp [hv] at h
      · constructor <;> simp [changeFieldType, hv, hex]
    · simp only [Bool.not_eq_true] at hv
      constructor <;> simp [changeFieldType, hv]

/-- Witness for C9: each conjunct applied at a concrete failing invocation —
an invalid path for add, a missing field for remove, redefine and retype,
and a missing origin for move — showing the hypotheses are satisfiable. -/
theorem failed_precondition_rejects_and_preserves_state_witness :
    (addSchemaField exArrState "a.$" (Node.prim exAttrs)).2 = exArrState
    ∧ (removeSchemaField exArrState "nope" false).2 = exArrState
    ∧ (moveSchemaField exArrState "nope" "a.e" false).2 = exArrState
    ∧ (changeFieldDefinition exArrState "nope" (Node.prim exAttrs)).2 = exArrState
    ∧ (changeFieldType exArrState "nope" "Number" none false false).2 = exArrState :=
  ⟨(failed_precondition_rejects_and_preserves_state.1 exArrState "a.$" (Node.prim exAttrs)
      (Or.inl (by decide))).1,
   (failed_precondition_rejects_and_preserves_state.2.1 exArrState "nope" false
      (Or.inr (by decide))).1,
   (failed_precondition_rejects_and_preserves_state.2.2.1 exArrState "nope" "a.e" false
      (Or.inr (Or.inr (Or.inl (by decide))))).1,
   (failed_precondition_rejects_and_preserves_state.2.2.2.1 exArrState "nope"
      (Node.prim exAttrs) (Or.inr (by decide))).1,
   (failed_precondition_rejects_and_preserves_state.2.2.2.2 exArrState "nope" "Number"
      none false false (Or.inr (by decide))).1⟩

/-- C10 amended: `pathIsValid("")` returns `true`, and the empty logical
path is never rejected by path validation; it flows on to resolution in
`addSchemaField` (which rejects at the exists check, since object-path
treats the empty path as the whole tree), in `removeSchemaField` (which
resolves), in `changeFieldDefinition` (which rejects from the inner add's
exists check) and in `changeFieldType` (which never produces the
invalid-path rejection); in `moveSchemaField` alone it passes validation but
execution fails at the line-487 reference to the undefined `path` before any
resolution. -/
theorem pathIsValid_accepts_empty_path :
    pathIsValid "" = true
    ∧ (∀ (st : DBState) (d : Node),
        (addSchemaField st "" d).1 = Outcome.rejected "The field to add already exists ()")
    ∧ (∀ (st : DBState),
        (removeSchemaField st "" false).1 = Outcome.resolved "Field removed successfully")
    ∧ (∀ (st : DBState) (d : Node),
        (changeFieldDefinition st "" d).1 = Outcome.rejected "The field to add already exists ()")
    ∧ (∀ (st : DBState) (ty : String) (dv : Option Val) (rq kv : Bool),
        (changeFieldType st "" ty dv rq kv).1 ≠ Outcome.rejected "The path is not valid")
    ∧ (∀ (st : DBState) (p : String) (c : Bool),
        (moveSchemaField st "" p c).1 = Outcome.errored "path is not defined") := by
  refine ⟨rfl, fun _ _ => rfl, fun _ => rfl, fun _ _ => rfl, ?_, fun _ _ _ => rfl⟩
  intro st ty dv rq kv
  have h1 : (getLastSchemaAndPaths st.tree "").fieldExists = true := rfl
  have h2 : (getLastSchemaAndPaths st.tree "").path = "" := rfl
  cases h : (dv.isSome || rq) <;> simp +decide [changeFieldType, h, h1, h2]

/-- Cascade removal, no array boundary: removing a field whose local path
crosses no array and whose deletion leaves its immediate parent subdocument
empty, with `removeSubdocumentIfEmpty = true`, resolves successfully and
deletes both the field and the now-empty parent — and nothing above it: the
resulting tree is exactly the double deletion, because the recursive call of
line 452 omits the cascade flag (an ancestor emptied by the parent's removal
stays; see the counterexample). -/
theorem remove_cascade_removes_empty_parent (st : DBState) (s0 : String) (rest0 : List String)
    (hs0 : s0 ≠ "")
    (hdots : ∀ s ∈ s0 :: rest0, '.' ∉ s.toList)
    (hrest : rest0 ≠ [])
    (hv : pathIsValid (String.intercalate "." (s0 :: rest0)) = true)
    (hvp : pathIsValid (String.intercalate "." (s0 :: rest0.dropLast)) = true)
    (hclean : extendsClean st.tree s0 rest0 = true)
    (hex : (treeGetT st.tree (s0 :: rest0)).isSome = true)
    (hparent : treeGetT (treeDel st.tree (s0 :: rest0)) (s0 :: rest0.dropLast)
        = some (Node.sub []))
    (hclean2 : extendsClean (treeDel st.tree (s0 :: rest0)) s0 rest0.dropLast = true) :
    (removeSchemaField st (String.intercalate "." (s0 :: rest0)) true).1
      = Outcome.resolved "Field removed successfully"
    ∧ (removeSchemaField st (String.intercalate "." (s0 :: rest0)) true).2.tree
      = treeDel (treeDel st.tree (s0 :: rest0)) (s0 :: rest0.dropLast) := by
  rcases List.exists_cons_of_ne_nil hrest with ⟨y, ys, rfl⟩
  set p := String.intercalate "." (s0 :: y :: ys) with hpdef
  have hpne : p ≠ "" := intercalate_ne_empty "." s0 (y :: ys) hs0
  have hsplit : jsSplit p = s0 :: y :: ys := jsSplit_intercalate (y :: ys) s0 hdots
  have hres : getLastSchemaAndPaths st.tree p = glpGo st.tree s0 (y :: ys) "" [] := by
    rw [getLastSchemaAndPaths, hsplit]
    rfl
  have hglp := glpGo_extendsClean (y :: ys) st.tree s0 hclean
  have hex2 : existsAt st.tree p = true := by
    rw [existsAt, if_neg hpne, hsplit]
    exact hex
  have hcore : removeSchemaFieldCore st p
      = Sum.inr (glpGo st.tree s0 (y :: ys) "" [],
          ⟨treeDel st.tree (s0 :: y :: ys),
           docsUnset st.docs "" p⟩) := by
    rw [removeSchemaFieldCore]
    simp only [hv, Bool.not_true, Bool.false_eq_true, if_false, ← hres]
    rw [hres, hglp]
    simp only [hex2, Bool.not_true, Bool.false_eq_true, if_false]
    rw [show (delThroughHops st.tree [String.intercalate "." (s0 :: y :: ys)])
          = treeDel st.tree (jsSplit (String.intercalate "." (s0 :: y :: ys))) from rfl]
    rw [show jsSplit (String.intercalate "." (s0 :: y :: ys)) = jsSplit p from rfl, hsplit]
  -- the parent path and its resolution inside the deleted tree
  set q := String.intercalate "." (s0 :: (y :: ys).dropLast) with hqdef
  have hqne : q ≠ "" := intercalate_ne_empty "." s0 ((y :: ys).dropLast) hs0
  have hqdots : ∀ s ∈ s0 :: (y :: ys).dropLast, '.' ∉ s.toList := by
    intro s hs
    rcases List.mem_cons.mp hs with h | h
    · exact hdots s (by simp [h])
    · exact hdots s (List.mem_cons_of_mem s0 ((List.dropLast_prefix (y :: ys)).subset h))
  have hqsplit : jsSplit q = s0 :: (y :: ys).dropLast :=
    jsSplit_intercalate ((y :: ys).dropLast) s0 hqdots
  have hqres : getLastSchemaAndPaths (treeDel st.tree (s0 :: y :: ys)) q
      = glpGo (treeDel st.tree (s0 :: y :: ys)) s0 ((y :: ys).dropLast) "" [] := by
    rw [getLastSchemaAndPaths, hqsplit]
    rfl
  have hqglp := glpGo_extendsClean ((y :: ys).dropLast) (treeDel st.tree (s0 :: y :: ys)) s0 hclean2
  have hqex : existsAt (treeDel st.tree (s0 :: y :: ys)) q = true := by
    rw [existsAt, if_neg hqne, hqsplit, hparent]
    rfl
  have hinner : removeSchemaFieldNoCascade
      ⟨treeDel st.tree (s0 :: y :: ys), docsUnset st.docs "" p⟩ q
      = (Outcome.resolved "Field removed successfully",
         ⟨treeDel (treeDel st.tree (s0 :: y :: ys)) (s0 :: (y :: ys).dropLast),
          docsUnset (docsUnset st.docs "" p) "" q⟩) := by
    rw [removeSchemaFieldNoCascade, removeSchemaFieldCore]
    simp only [hvp, ← hqdef, Bool.not_true, Bool.false_eq_true, if_false]
    rw [hqres, hqglp]
    simp only [hqex, ← hqdef, Bool.not_true, Bool.false_eq_true, if_false]
    rw [show (delThroughHops (treeDel st.tree (s0 :: y :: ys)) [q])
          = treeDel (treeDel st.tree (s0 :: y :: ys)) (jsSplit q) from rfl, hqsplit]
  -- assemble the outer call
  rw [removeSchemaField, hcore]
  simp only
  rw [hglp]
  simp only [hsplit]
  simp only [if_true]
  rw [if_pos (by simp)]
  rw [show ([(String.intercalate "." (s0 :: y :: ys))] : List String).dropLast = [] from rfl]
  rw [show ownerThroughHops (treeDel st.tree (s0 :: y :: ys)) []
        = treeDel st.tree (s0 :: y :: ys) from rfl]
  rw [show ((s0 :: y :: ys).dropLast : List String) = s0 :: (y :: ys).dropLast from rfl]
  rw [hparent]
  rw [← hqdef, hinner]
  exact ⟨rfl, rfl⟩

/-- The boundary-free cascade lemma applied at `{ x: { y: { z: String } } }`
with path `"x.y.z"`. -/
theorem remove_cascade_removes_empty_parent_witness :
    (removeSchemaField exNestedState (String.intercalate "." ["x", "y", "z"]) true).1
      = Outcome.resolved "Field removed successfully" :=
  (remove_cascade_removes_empty_parent exNestedState "x" ["y", "z"]
    (by decide) (by decide) (by decide) (by decide) (by decide) rfl rfl rfl rfl).1

/-- C3 amended: with `removeSubdocumentIfEmpty = true`, removing the only
remaining field of a parent subdocument also removes the now-empty immediate
parent whenever the field lies under at most two array boundaries, and the
upward deletion always stops after that one level (the line-452 recursive
call omits the cascade flag).  First conjunct: the boundary-free case, for
every tree and multi-segment local path.  Second conjunct: one or two array
boundaries, for every resolution plan of at most two hop levels — there the
container path is marker-free, so the line-452/454 cascade path is valid and
the inner removal deletes the parent through the same hops (the plan
condition on the post-deletion tree encodes that the emptied parent still
resolves, which the deletion provides).  Third conjunct: under three array
boundaries the container path retains a `".$[]"` marker (the line-763
first-occurrence replace), the cascade path fails validation, the inner call
rejects it, the emptied parent survives, and — line 455 attaching no
`.catch` — the promise never settles (`Outcome.pending`). -/
theorem remove_cascade_removes_parent_within_two_array_boundaries :
    (∀ (st : DBState) (s0 : String) (rest0 : List String),
      s0 ≠ "" →
      (∀ s ∈ s0 :: rest0, '.' ∉ s.toList) →
      rest0 ≠ [] →
      pathIsValid (String.intercalate "." (s0 :: rest0)) = true →
      pathIsValid (String.intercalate "." (s0 :: rest0.dropLast)) = true →
      extendsClean st.tree s0 rest0 = true →
      (treeGetT st.tree (s0 :: rest0)).isSome = true →
      treeGetT (treeDel st.tree (s0 :: rest0)) (s0 :: rest0.dropLast) = some (Node.sub []) →
      extendsClean (treeDel st.tree (s0 :: rest0)) s0 rest0.dropLast = true →
      (removeSchemaField st (String.intercalate "." (s0 :: rest0)) true).1
          = Outcome.resolved "Field removed successfully"
        ∧ (removeSchemaField st (String.intercalate "." (s0 :: rest0)) true).2.tree
          = treeDel (treeDel st.tree (s0 :: rest0)) (s0 :: rest0.dropLast))
    ∧ (∀ (st : DBState) (hopLvls : List (List String)) (s2 y2 : String) (ys2 : List String),
      hopLvls ≠ [] → hopLvls.length ≤ 2 →
      levelsWB (hopLvls ++ [s2 :: y2 :: ys2]) = true →
      pathIsValid (String.intercalate "." (hopLvls ++ [s2 :: y2 :: ys2]).flatten) = true →
      planOk st.tree (hopLvls ++ [s2 :: y2 :: ys2]) = true →
      (treeGetT (planOwner st.tree (hopLvls ++ [s2 :: y2 :: ys2]))
          (s2 :: y2 :: ys2)).isSome = true →
      pathIsValid (String.intercalate "."
          (hopLvls.flatten ++ (s2 :: y2 :: ys2).dropLast)) = true →
      treeGetT (ownerThroughHops
            (delThroughHops st.tree (planJoins (hopLvls ++ [s2 :: y2 :: ys2])))
            (planJoins hopLvls))
          ((s2 :: y2 :: ys2).dropLast) = some (Node.sub []) →
      planOk (delThroughHops st.tree (planJoins (hopLvls ++ [s2 :: y2 :: ys2])))
          (hopLvls ++ [(s2 :: y2 :: ys2).dropLast]) = true →
      (removeSchemaField st
          (String.intercalate "." (hopLvls ++ [s2 :: y2 :: ys2]).flatten) true).1
          = Outcome.resolved "Field removed successfully"
        ∧ (removeSchemaField st
            (String.intercalate "." (hopLvls ++ [s2 :: y2 :: ys2]).flatten) true).2.tree
          = delThroughHops
              (delThroughHops st.tree (planJoins (hopLvls ++ [s2 :: y2 :: ys2])))
              (planJoins (hopLvls ++ [(s2 :: y2 :: ys2).dropLast])))
    ∧ (pathIsValid "a.b.$[].c.x" = false
      ∧ (removeSchemaField exCascadeDeepState "a.b.c.x.y" true).1 = Outcome.pending
      ∧ treeGetT (elemTreeAt (elemTreeAt (elemTreeAt
            (removeSchemaField exCascadeDeepState "a.b.c.x.y" true).2.tree "a") "b") "c")
          ["x"] = some (Node.sub [])) :=
  ⟨remove_cascade_removes_empty_parent, remove_cascade_shallow_hops, by decide, rfl, rfl⟩

/-- Witness for C3 amended: the boundary-free conjunct at
`{ x: { y: { z: String } } }` with `"x.y.z"`, the hop conjunct at one array
boundary (`{ a: [{ x: { y: String } }] }`, path `"a.x.y"`) and at two
(`{ a: [{ b: [{ x: { y: String } }] }] }`, path `"a.b.x.y"`). -/
theorem remove_cascade_within_two_boundaries_witness :
    (removeSchemaField exNestedState (String.intercalate "." ["x", "y", "z"]) true).2.tree
        = treeDel (treeDel exNestedState.tree ["x", "y", "z"]) ("x" :: ["y", "z"].dropLast)
    ∧ (removeSchemaField exArrCascadeState (String.intercalate "."
          (([["a"]] ++ [["x", "y"]] : List (List String)).flatten)) true).1
        = Outcome.resolved "Field removed successfully"
    ∧ (removeSchemaField exArr2CascadeState (String.intercalate "."
          (([["a"], ["b"]] ++ [["x", "y"]] : List (List String)).flatten)) true).1
        = Outcome.resolved "Field removed successfully" :=
  ⟨(remove_cascade_removes_parent_within_two_array_boundaries.1 exNestedState "x" ["y", "z"]
      (by decide) (by decide) (by decide) (by decide) (by decide) rfl rfl rfl rfl).2,
   (remove_cascade_removes_parent_within_two_array_boundaries.2.1 exArrCascadeState
      [["a"]] "x" "y" [] (by simp) (by simp) (by decide) (by decide) (by decide) rfl
      (by decide) rfl rfl).1,
   (remove_cascade_removes_parent_within_two_array_boundaries.2.1 exArr2CascadeState
      [["a"], ["b"]] "x" "y" [] (by simp) (by simp) (by decide) (by decide) (by decide) rfl
      (by decide) rfl rfl).1⟩

/-- C7: `pathIsValid` is a pure boolean function that rejects a path if and
only if it starts with the separator `'.'`, ends with the separator,
contains two consecutive separators, or contains the store-reserved `'$'`
character; every other path is accepted.  The right-hand side is the spec's
own wording formalised independently over the path's characters. -/
theorem pathIsValid_matches_spec (path : String) :
    pathIsValid path = false ↔ specRejectsPath path := by
  have hA : (jsCharAt path 0 == some '.') = true ↔ path.toList.head? = some '.' := by
    simp [jsCharAt, List.get?_eq_getElem?, List.head?_eq_getElem?]
  have hB : (jsCharAt path (path.length - 1) == some '.') = true
      ↔ path.toList.getLast? = some '.' := by
    show (path.toList.get? (path.toList.length - 1) == some '.') = true ↔ _
    simp [List.get?_eq_getElem?, List.getLast?_eq_getElem?]
  have hC : jsIncludes path ".." = true ↔ ∃ l r, path.toList = l ++ '.' :: '.' :: r := by
    have h2 : (".." : String).toList = ['.', '.'] := rfl
    rw [jsIncludes, h2, containsAt_iff_infix]
    constructor
    · rintro ⟨s, t, h⟩
      exact ⟨s, t, by rw [← h]; simp⟩
    · rintro ⟨s, t, h⟩
      exact ⟨s, t, by rw [h]; simp⟩
  rw [pathIsValid, Bool.not_eq_false']
  unfold specRejectsPath
  simp only [Bool.or_eq_true, or_assoc]
  exact or_congr hA (or_congr hB (or_congr hC jsIncludes_dollar_iff))

/-- C10 counterexample: the empty logical path is accepted by validation,
but in `moveSchemaField` it does not flow on to resolution: the call fails
at the line-487 reference to the undefined `path` before
`getLastSchemaAndPaths` is ever invoked. -/
theorem move_empty_path_errors_before_resolution :
    pathIsValid "" = true
    ∧ moveSchemaField exArrState "" "a" false
      = (Outcome.errored "path is not defined", exArrState) :=
  ⟨rfl, rfl⟩

end MongooseDynamic
